import Mathlib

/-!
# ChannelMeter/timeseries: sliding-window counters over a ring of buckets

Shallow embedding of `timeseries.go`.

* Go's `int64` is the type `Int64` below: an integer in `[-2^63, 2^63)` whose
  addition wraps modulo `2^64`.
* Go's `int` (the `points` arguments) is `Int`; a negative length given to
  `make` is a panic. The sum `points + 1` in the constructors is taken over the
  integers (a ring large enough for it to overflow cannot be allocated).
* A panic is the result `none`.
* `container/ring`: a `*ring.Ring` is modelled by the values met when walking
  the circular list from that element along its `Prev` links
  (`view = [r.Value, r.Prev().Value, r.Prev().Prev().Value, ...]`).
  A ring slot holds an `interface{}`: `none` is the untouched `nil` slot (the
  `default` arm of the type switches), `some x` a slot holding an accumulator.
* The ticker goroutine is modelled by the explicit operation `tick`: a run of
  the program is a finite sequence of `AddInt64` calls and rotations. The reads
  write nothing to the series, so a read interleaved in a run (`MetricCall`,
  `TopKCall`) leaves the state as it found it, whether it returns or panics.
* `map[string]Tuple` is an association list with pairwise distinct keys. The
  order in which `range` visits a map is not specified by Go, and `sort.Sort`
  is not stable; both are parameters of the read operations (`RangeOrder`,
  `Sorter`), constrained only by their contracts.
-/

namespace Timeseries

/-! ## Machine integers -/

/-- Two's-complement reduction of an integer into the range of `int64`. -/
def wrap64 (x : Int) : Int :=
  (x + 9223372036854775808) % 18446744073709551616 - 9223372036854775808

/-- Go's `int64`. -/
structure Int64 where
  val : Int
  lo : -9223372036854775808 ≤ val
  hi : val < 9223372036854775808
deriving DecidableEq

/-- Conversion `int64(x)` of an integer. -/
def Int64.ofInt (x : Int) : Int64 :=
  ⟨wrap64 x, by unfold wrap64; omega, by unfold wrap64; omega⟩

/-- Go's `+` on `int64`: wraps around on overflow. -/
def Int64.add (a b : Int64) : Int64 := Int64.ofInt (a.val + b.val)

instance : Zero Int64 := ⟨⟨0, by decide, by decide⟩⟩

instance : Add Int64 := ⟨Int64.add⟩

instance : Inhabited Int64 := ⟨0⟩

instance : AddCommMonoid Int64 where
  add_assoc a b c := by
    rcases a with ⟨a, _, _⟩
    rcases b with ⟨b, _, _⟩
    rcases c with ⟨c, _, _⟩
    show Int64.add (Int64.add _ _) _ = Int64.add _ (Int64.add _ _)
    simp only [Int64.add, Int64.ofInt, Int64.mk.injEq, wrap64]
    omega
  zero_add a := by
    rcases a with ⟨a, _, _⟩
    show Int64.add ⟨0, _, _⟩ _ = _
    simp only [Int64.add, Int64.ofInt, Int64.mk.injEq, wrap64]
    omega
  add_zero a := by
    rcases a with ⟨a, _, _⟩
    show Int64.add _ ⟨0, _, _⟩ = _
    simp only [Int64.add, Int64.ofInt, Int64.mk.injEq, wrap64]
    omega
  add_comm a b := by
    rcases a with ⟨a, _, _⟩
    rcases b with ⟨b, _, _⟩
    show Int64.add _ _ = Int64.add _ _
    simp only [Int64.add, Int64.ofInt, Int64.mk.injEq, wrap64]
    omega
  nsmul := nsmulRec

/-! ## container/ring -/

/-- A `*ring.Ring`: the slot values met from this element along `Prev` links,
the element's own value first. -/
structure Ring (α : Type) where
  view : List (Option α)
deriving DecidableEq

/-- `ring.New(n)`: `n` slots holding `nil`; the nil ring when `n <= 0`. -/
def Ring.New {α : Type} (n : Int) : Option (Ring α) :=
  if n ≤ 0 then none else some ⟨List.replicate n.toNat none⟩

/-- `r.Len()`. -/
def Ring.Len {α : Type} (r : Ring α) : Int := r.view.length

/-- `r.Value`. -/
def Ring.Value {α : Type} (r : Ring α) : Option α :=
  match r.view with
  | [] => none
  | v :: _ => v

/-- The assignment `r.Value = v`. -/
def Ring.setValue {α : Type} (r : Ring α) (v : Option α) : Ring α :=
  match r.view with
  | [] => r
  | _ :: rest => ⟨v :: rest⟩

/-- `r.Prev()`. -/
def Ring.Prev {α : Type} (r : Ring α) : Ring α :=
  match r.view with
  | [] => r
  | v :: rest => ⟨rest ++ [v]⟩

/-- `r.Next()`: the element whose `Prev` is `r`. -/
def Ring.Next {α : Type} (r : Ring α) : Ring α :=
  match r.view.getLast? with
  | none => r
  | some v => ⟨v :: r.view.dropLast⟩

/-- The value of the slot reached from `r` after `i` steps of `Prev`: the slot
that is `i` rotations old when `r` is the current slot. -/
def Ring.slotAt {α : Type} (r : Ring α) (i : Nat) : Option α :=
  (Ring.Prev^[i] r).Value

/-! ## Scalar series -/

/-- The type `TimeSeriesMetric` (the ticker and the resolution are not part of
the model). -/
structure TimeSeriesMetric where
  values : Ring Int64
deriving DecidableEq

/-- `NewTimeSeriesMetric(resolution, points)`. -/
def NewTimeSeriesMetric (points : Int) : Option TimeSeriesMetric :=
  match (Ring.New (points + 1) : Option (Ring Int64)) with
  | none => none
  | some r => some ⟨r.setValue (some 0)⟩

/-- `(*TimeSeriesMetric).tick`. -/
def TimeSeriesMetric.tick (tsm : TimeSeriesMetric) : TimeSeriesMetric :=
  let next := tsm.values.Next
  match next.Value with
  | some _ => ⟨next.setValue (some 0)⟩
  | none => ⟨next.setValue (some 0)⟩

/-- `(*TimeSeriesMetric).AddInt64`: the type assertion panics on a `nil` slot. -/
def TimeSeriesMetric.AddInt64 (tsm : TimeSeriesMetric) (delta : Int64) :
    Option TimeSeriesMetric :=
  match tsm.values.Value with
  | some v => some ⟨tsm.values.setValue (some (v + delta))⟩
  | none => none

/-- The loop of `(*TimeSeriesMetric).PastN`, `k` iterations from element `n`. -/
def TimeSeriesMetric.pastLoop : Ring Int64 → Nat → List Int64
  | _, 0 => []
  | n, k + 1 =>
    (match n.Value with
      | some v => v
      | none => 0) :: TimeSeriesMetric.pastLoop n.Prev k

/-- `(*TimeSeriesMetric).PastN`. -/
def TimeSeriesMetric.PastN (tsm : TimeSeriesMetric) (points : Int) : Option (List Int64) :=
  if points > tsm.values.Len - 1 then none
  else if points < 0 then none
  else some (TimeSeriesMetric.pastLoop tsm.values points.toNat)

/-- The loop of `(*TimeSeriesMetric).SumPastN`, `k` iterations from element `n`
with running total `r`. -/
def TimeSeriesMetric.sumLoop : Ring Int64 → Nat → Int64 → Int64
  | _, 0, r => r
  | n, k + 1, r =>
    TimeSeriesMetric.sumLoop n.Prev k
      (match n.Value with
        | some v => r + v
        | none => r)

/-- `(*TimeSeriesMetric).SumPastN`. -/
def TimeSeriesMetric.SumPastN (tsm : TimeSeriesMetric) (points : Int) : Option Int64 :=
  if points > tsm.values.Len - 1 then none
  else some (TimeSeriesMetric.sumLoop tsm.values points.toNat 0)

/-- One step of a run of a scalar series. -/
inductive MetricOp where
  | AddInt64 (delta : Int64)
  | tick
deriving DecidableEq

/-- Effect of one step. -/
def MetricOp.apply : MetricOp → TimeSeriesMetric → Option TimeSeriesMetric
  | .AddInt64 delta, tsm => tsm.AddInt64 delta
  | .tick, tsm => some tsm.tick

/-- Effect of a finite sequence of steps, left to right. -/
def TimeSeriesMetric.run : TimeSeriesMetric → List MetricOp → Option TimeSeriesMetric
  | tsm, [] => some tsm
  | tsm, op :: ops =>
    match op.apply tsm with
    | none => none
    | some tsm' => TimeSeriesMetric.run tsm' ops

/-- The deltas of a run grouped by the bucket that was current when they were
added, most recent bucket first; `B` is the grouping so far. -/
def bucketDeltas : List (List Int64) → List MetricOp → List (List Int64)
  | B, [] => B
  | [], .AddInt64 d :: ops => bucketDeltas [[d]] ops
  | b :: B, .AddInt64 d :: ops => bucketDeltas ((b ++ [d]) :: B) ops
  | B, .tick :: ops => bucketDeltas ([] :: B) ops

/-- The run of the scalar test: `AddInt64(i+1)` then one rotation, for
`i = 0 .. n-1`. -/
def metricTestOps (n : Nat) : List MetricOp :=
  (List.range n).flatMap fun i => [.AddInt64 (Int64.ofInt (i + 1)), .tick]

/-- Invariant linking a scalar series to the grouping `B` of the deltas of its
run: the current slot holds an accumulator, and the slot that is `i` rotations
old holds the `int64` sum of group `i` (an untouched slot reads as zero). -/
def MetricInv (tsm : TimeSeriesMetric) (B : List (List Int64)) : Prop :=
  tsm.values.Value.isSome = true ∧ B ≠ [] ∧
    tsm.values.view.map (fun o => o.getD 0) =
      (B.map List.sum ++ List.replicate tsm.values.view.length 0).take tsm.values.view.length

/-! ## Top-K series -/

/-- The type `Tuple`. -/
structure Tuple where
  Key : String
  Value : Int64
deriving DecidableEq

/-- The zero value of `Tuple`. -/
instance : Inhabited Tuple := ⟨⟨"", 0⟩⟩

/-- `Tuples.Less`, on the two elements `a = tps[i]` and `b = tps[j]`. -/
def Tuples.Less (a b : Tuple) : Prop := a.Value.val < b.Value.val

instance : DecidableRel Tuples.Less := fun a b => inferInstanceAs (Decidable (a.Value.val < b.Value.val))

/-- The contract of `sort.Sort(sort.Reverse(Tuples(l)))`: a function from the
slice before the call to the slice after it, which holds the same elements and
in which no later element is `Less`-greater than an earlier one. The library
does not promise more (the sort is not stable). -/
structure Sorter where
  sort : List Tuple → List Tuple
  perm : ∀ l, (sort l).Perm l
  sorted : ∀ l, (sort l).Pairwise (fun a b => ¬ Tuples.Less a b)

/-- Insertion sort, which is what `sort.Sort` runs on slices shorter than 12. -/
def insertionSorter : Sorter where
  sort := List.insertionSort (fun a b => ¬ Tuples.Less a b)
  perm := List.perm_insertionSort _
  sorted := by
    intro l
    have : IsTotal Tuple (fun a b => ¬ Tuples.Less a b) :=
      ⟨fun a b => by unfold Tuples.Less; omega⟩
    have : IsTrans Tuple (fun a b => ¬ Tuples.Less a b) :=
      ⟨fun a b c => by unfold Tuples.Less; omega⟩
    exact List.sorted_insertionSort _ l

/-- A `map[string]Tuple`: its entries, with pairwise distinct keys. -/
abbrev GoMap := List (String × Tuple)

/-- The lookup `v, ok := m[key]`. -/
def GoMap.find (m : GoMap) (key : String) : Option Tuple :=
  match m with
  | [] => none
  | (k, t) :: rest => if k = key then some t else GoMap.find rest key

/-- The expression `m[key]`: the zero `Tuple` when the key is absent. -/
def GoMap.index (m : GoMap) (key : String) : Tuple :=
  (GoMap.find m key).getD default

/-- The assignment `m[key] = t`. -/
def GoMap.store (m : GoMap) (key : String) (t : Tuple) : GoMap :=
  match m with
  | [] => [(key, t)]
  | (k, t') :: rest => if k = key then (key, t) :: rest else (k, t') :: GoMap.store rest key t

/-- The order in which `range` visits a map. Go leaves it unspecified and it
may change from one `range` statement to the next: `order i m` is the order
used by the `i`-th `range` statement that a call executes, and the only
constraint is that every entry is visited once. -/
structure RangeOrder where
  order : Nat → GoMap → GoMap
  perm : ∀ i m, (order i m).Perm m

/-- Every `range` visits the entries in the order of the association list. -/
def RangeOrder.stored : RangeOrder := ⟨fun _ m => m, fun _ _ => List.Perm.refl _⟩

/-- Every `range` visits the entries in the opposite order. -/
def RangeOrder.backwards : RangeOrder := ⟨fun _ m => m.reverse, fun _ m => List.reverse_perm m⟩

/-- The type `TimeSeriesTopK`. -/
structure TimeSeriesTopK where
  values : Ring GoMap
deriving DecidableEq

/-- `NewTimeSeriesTopK(resolution, points)`. -/
def NewTimeSeriesTopK (points : Int) : Option TimeSeriesTopK :=
  match (Ring.New (points + 1) : Option (Ring GoMap)) with
  | none => none
  | some r => some ⟨r.setValue (some [])⟩

/-- `(*TimeSeriesTopK).tick`. -/
def TimeSeriesTopK.tick (tsm : TimeSeriesTopK) : TimeSeriesTopK :=
  ⟨tsm.values.Next.setValue (some [])⟩

/-- `(*TimeSeriesTopK).GetCurr`: the type assertion panics on a `nil` slot. -/
def TimeSeriesTopK.GetCurr (tsm : TimeSeriesTopK) (key : String) : Option Int64 :=
  match tsm.values.Value with
  | some m => some (GoMap.index m key).Value
  | none => none

/-- `(*TimeSeriesTopK).AddInt64`. -/
def TimeSeriesTopK.AddInt64 (tsm : TimeSeriesTopK) (key : String) (delta : Int64) :
    Option TimeSeriesTopK :=
  match tsm.values.Value with
  | some m =>
    match GoMap.find m key with
    | some v => some ⟨tsm.values.setValue (some (GoMap.store m key ⟨key, v.Value + delta⟩))⟩
    | none => some ⟨tsm.values.setValue (some (GoMap.store m key ⟨key, delta⟩))⟩
  | none => none

/-- The loop of `(*TimeSeriesTopK).PastN`: `k` iterations from element `n`, the
first of them being iteration `i` of the call. -/
def TimeSeriesTopK.pastLoop (srt : Sorter) (ro : RangeOrder) :
    Nat → Ring GoMap → Nat → List (List Tuple)
  | _, _, 0 => []
  | i, n, k + 1 =>
    (match n.Value with
      | some v => srt.sort ((ro.order i v).map Prod.snd)
      | none => []) :: TimeSeriesTopK.pastLoop srt ro (i + 1) n.Prev k

/-- `(*TimeSeriesTopK).PastN`. -/
def TimeSeriesTopK.PastN (srt : Sorter) (ro : RangeOrder) (tsm : TimeSeriesTopK)
    (points : Int) : Option (List (List Tuple)) :=
  if points > tsm.values.Len - 1 then none
  else if points < 0 then none
  else some (TimeSeriesTopK.pastLoop srt ro 0 tsm.values points.toNat)

/-- The body of the inner loop of `(*TimeSeriesTopK).SumPastN` for the entry
`k, v := e`. -/
def TimeSeriesTopK.mergeEntry (master : GoMap) (e : String × Tuple) : GoMap :=
  match GoMap.find master e.1 with
  | some _ => GoMap.store master e.1 ⟨e.2.Key, e.2.Value + (GoMap.index master e.1).Value⟩
  | none => GoMap.store master e.1 e.2

/-- The outer loop of `(*TimeSeriesTopK).SumPastN`: `k` iterations from element
`n`, the first of them being iteration `i` of the call. -/
def TimeSeriesTopK.sumLoop (ro : RangeOrder) : Nat → Ring GoMap → Nat → GoMap → GoMap
  | _, _, 0, master => master
  | i, n, k + 1, master =>
    TimeSeriesTopK.sumLoop ro (i + 1) n.Prev k
      (match n.Value with
        | some rv => (ro.order i rv).foldl TimeSeriesTopK.mergeEntry master
        | none => master)

/-- `(*TimeSeriesTopK).SumPastN`. -/
def TimeSeriesTopK.SumPastN (srt : Sorter) (ro : RangeOrder) (tsm : TimeSeriesTopK)
    (points : Int) : Option (List Tuple) :=
  if points > tsm.values.Len - 1 then none
  else
    let master := TimeSeriesTopK.sumLoop ro 0 tsm.values points.toNat []
    some (srt.sort ((ro.order points.toNat master).map Prod.snd))

/-- One step of a run of a top-K series. -/
inductive TopKOp where
  | AddInt64 (key : String) (delta : Int64)
  | tick
deriving DecidableEq

/-- Effect of one step. -/
def TopKOp.apply : TopKOp → TimeSeriesTopK → Option TimeSeriesTopK
  | .AddInt64 key delta, tsm => tsm.AddInt64 key delta
  | .tick, tsm => some tsm.tick

/-- Effect of a finite sequence of steps, left to right. -/
def TimeSeriesTopK.run : TimeSeriesTopK → List TopKOp → Option TimeSeriesTopK
  | tsm, [] => some tsm
  | tsm, op :: ops =>
    match op.apply tsm with
    | none => none
    | some tsm' => TimeSeriesTopK.run tsm' ops

/-- Well-formedness of a slot map: the keys are pairwise distinct and every
entry stored under key `k` is a `Tuple` whose `Key` is `k`. -/
def GoMap.WF (m : GoMap) : Prop :=
  (m.map Prod.fst).Nodup ∧ ∀ e ∈ m, e.2.Key = e.1

/-- Invariant of the states of a top-K series: the current slot holds a map and
every map in the ring is well formed. -/
def TopKInv (tsm : TimeSeriesTopK) : Prop :=
  tsm.values.Value.isSome = true ∧ ∀ m, some m ∈ tsm.values.view → GoMap.WF m

/-- The maps of the `points` most recent slots, the current one first (a `nil`
slot has no entries). -/
def TimeSeriesTopK.window (tsm : TimeSeriesTopK) (points : Nat) : List GoMap :=
  (List.range points).map fun i => (tsm.values.slotAt i).getD []

/-- The `int64` sum over the maps of `w` of the value stored for `key`, counting
0 for a map where the key is absent. -/
def windowTotal (w : List GoMap) (key : String) : Int64 :=
  (w.map fun m => (GoMap.index m key).Value).sum

/-- The `(key, value)` entries of a map as tuples. -/
def GoMap.entries (m : GoMap) : List Tuple :=
  m.map fun e => ⟨e.1, e.2.Value⟩

/-- The names of `TestTimeSeriesTopK`. -/
def topKTestNames : List String :=
  ["Mark", "Anderson", "Jamie", "Paul", "Remy", "Eren", "Annie", "Sasha", "Zoe"]

/-- The run of the top-K test: in each round `AddInt64(n, len(n))` for every
name `n`, then one rotation. -/
def topKTestOps (rounds : Nat) : List TopKOp :=
  (List.range rounds).flatMap fun _ =>
    topKTestNames.map (fun n => TopKOp.AddInt64 n (Int64.ofInt n.utf8ByteSize)) ++ [TopKOp.tick]

/-- The state in which `TestTimeSeriesTopK` calls `SumPastN(16)`. -/
def topKTestState : TimeSeriesTopK :=
  ((NewTimeSeriesTopK 16).bind fun s0 => s0.run (topKTestOps 16)).getD ⟨⟨[]⟩⟩

/-- One call on a scalar series: a write, a rotation or a read. -/
inductive MetricCall where
  | AddInt64 (delta : Int64)
  | tick
  | PastN (points : Int)
  | SumPastN (points : Int)
deriving DecidableEq

/-- Effect of one call on the state of a scalar series: `PastN` and `SumPastN`
assign neither to a field of the series nor to a ring slot. -/
def MetricCall.apply : MetricCall → TimeSeriesMetric → Option TimeSeriesMetric
  | .AddInt64 delta, tsm => tsm.AddInt64 delta
  | .tick, tsm => some tsm.tick
  | .PastN _, tsm => some tsm
  | .SumPastN _, tsm => some tsm

/-- Effect of a finite sequence of calls on a scalar series, left to right. -/
def TimeSeriesMetric.runCalls : TimeSeriesMetric → List MetricCall → Option TimeSeriesMetric
  | tsm, [] => some tsm
  | tsm, c :: cs =>
    match c.apply tsm with
    | none => none
    | some tsm' => TimeSeriesMetric.runCalls tsm' cs

/-- One call on a top-K series: a write, a rotation or a read. -/
inductive TopKCall where
  | AddInt64 (key : String) (delta : Int64)
  | tick
  | GetCurr (key : String)
  | PastN (points : Int)
  | SumPastN (points : Int)
deriving DecidableEq

/-- Effect of one call on the state of a top-K series: `GetCurr` only looks a
key up, `PastN` copies the tuples of a slot before sorting them and `SumPastN`
merges into a map of its own, so none of them writes to the series. -/
def TopKCall.apply : TopKCall → TimeSeriesTopK → Option TimeSeriesTopK
  | .AddInt64 key delta, tsm => tsm.AddInt64 key delta
  | .tick, tsm => some tsm.tick
  | .GetCurr _, tsm => some tsm
  | .PastN _, tsm => some tsm
  | .SumPastN _, tsm => some tsm

/-- Effect of a finite sequence of calls on a top-K series, left to right. -/
def TimeSeriesTopK.runCalls : TimeSeriesTopK → List TopKCall → Option TimeSeriesTopK
  | tsm, [] => some tsm
  | tsm, c :: cs =>
    match c.apply tsm with
    | none => none
    | some tsm' => TimeSeriesTopK.runCalls tsm' cs

/-- The calls on a scalar series that are reads. -/
def MetricCall.isRead : MetricCall → Bool
  | .PastN _ => true
  | .SumPastN _ => true
  | _ => false

/-- The calls on a top-K series that are reads. -/
def TopKCall.isRead : TopKCall → Bool
  | .GetCurr _ => true
  | .PastN _ => true
  | .SumPastN _ => true
  | _ => false

/-! ## Ring lemmas -/

theorem Ring.view_New {α : Type} {n : Int} {r : Ring α} (h : Ring.New n = some r) :
    0 < n ∧ r.view = List.replicate n.toNat none := by
  unfold Ring.New at h
  split at h
  · cases h
  · cases h
    exact ⟨by omega, rfl⟩

theorem Ring.view_Prev_cons {α : Type} (v : Option α) (rest : List (Option α)) :
    (Ring.Prev ⟨v :: rest⟩).view = rest ++ [v] := rfl

theorem Ring.length_Prev {α : Type} (r : Ring α) : r.Prev.view.length = r.view.length := by
  rcases r with ⟨_ | ⟨v, rest⟩⟩ <;> simp [Ring.Prev]

theorem Ring.length_setValue {α : Type} (r : Ring α) (v : Option α) :
    (r.setValue v).view.length = r.view.length := by
  rcases r with ⟨_ | ⟨w, rest⟩⟩ <;> simp [Ring.setValue]

theorem Ring.view_Next_of_ne_nil {α : Type} (r : Ring α) (h : r.view ≠ []) :
    r.Next.view = r.view.getLast h :: r.view.dropLast := by
  unfold Ring.Next
  rw [List.getLast?_eq_getLast _ h]

theorem Ring.length_Next {α : Type} (r : Ring α) : r.Next.view.length = r.view.length := by
  by_cases h : r.view = []
  · simp [Ring.Next, h]
  · rw [Ring.view_Next_of_ne_nil r h]
    have := List.length_pos.mpr h
    simp
    omega

theorem Ring.view_iterate_Prev {α : Type} (i : Nat) (r : Ring α) :
    (Ring.Prev^[i] r).view = r.view.rotate i := by
  induction i generalizing r with
  | zero => simp
  | succ i ih =>
    rw [Function.iterate_succ_apply, ih]
    rcases r with ⟨_ | ⟨v, rest⟩⟩
    · simp [Ring.Prev]
    · rw [Ring.view_Prev_cons, List.rotate_cons_succ]

theorem Ring.Value_eq_head {α : Type} (r : Ring α) : r.Value = r.view.head?.join := by
  rcases r with ⟨_ | ⟨v, rest⟩⟩ <;> simp [Ring.Value, Option.join]

theorem Ring.slotAt_eq {α : Type} (r : Ring α) (i : Nat) (h : i < r.view.length) :
    r.slotAt i = (r.view[i]?).join := by
  unfold Ring.slotAt
  rw [Ring.Value_eq_head, Ring.view_iterate_Prev, List.head?_rotate h]

/-! ## Machine integer lemmas -/

theorem Int64.ext_val {a b : Int64} (h : a.val = b.val) : a = b := by
  rcases a with ⟨a, _, _⟩
  rcases b with ⟨b, _, _⟩
  cases h
  rfl

theorem Int64.add_val (a b : Int64) : (a + b).val = wrap64 (a.val + b.val) := rfl

theorem Int64.zero_val : (0 : Int64).val = 0 := rfl

theorem Int64.ofInt_val (a : Int64) : Int64.ofInt a.val = a := by
  apply Int64.ext_val
  have h1 := a.lo
  have h2 := a.hi
  simp only [Int64.ofInt, wrap64]
  omega

theorem Int64.add_ofInt (a : Int64) (x : Int) :
    a + Int64.ofInt x = Int64.ofInt (a.val + x) := by
  apply Int64.ext_val
  rw [Int64.add_val]
  simp only [Int64.ofInt, wrap64]
  omega

/-- The `int64` sum of a list is the conversion of its exact integer sum. -/
theorem Int64.sum_eq_ofInt (l : List Int64) :
    l.sum = Int64.ofInt (l.map Int64.val).sum := by
  induction l with
  | nil => exact Int64.ext_val rfl
  | cons a l ih => rw [List.sum_cons, ih, Int64.add_ofInt, List.map_cons, List.sum_cons]

/-! ## Scalar series lemmas -/

theorem TimeSeriesMetric.pastLoop_eq (k : Nat) (r : Ring Int64) (h : k ≤ r.view.length) :
    TimeSeriesMetric.pastLoop r k = (r.view.take k).map (fun o => o.getD 0) := by
  induction k generalizing r with
  | zero => simp [TimeSeriesMetric.pastLoop]
  | succ k ih =>
    rcases r with ⟨_ | ⟨v, rest⟩⟩
    · simp at h
    · simp only [List.length_cons] at h
      rw [TimeSeriesMetric.pastLoop, ih _ (by rw [Ring.length_Prev]; simpa using by omega),
        Ring.view_Prev_cons, List.take_append_of_le_length (by omega)]
      cases v <;> simp [Ring.Value]

theorem TimeSeriesMetric.sumLoop_eq (k : Nat) (r : Ring Int64) (acc : Int64)
    (h : k ≤ r.view.length) :
    TimeSeriesMetric.sumLoop r k acc = acc + ((r.view.take k).map (fun o => o.getD 0)).sum := by
  induction k generalizing r acc with
  | zero => simp [TimeSeriesMetric.sumLoop]
  | succ k ih =>
    rcases r with ⟨_ | ⟨v, rest⟩⟩
    · simp at h
    · simp only [List.length_cons] at h
      rw [TimeSeriesMetric.sumLoop, ih _ _ (by rw [Ring.length_Prev]; simpa using by omega),
        Ring.view_Prev_cons, List.take_append_of_le_length (by omega)]
      cases v <;> simp [Ring.Value, add_assoc]

theorem TimeSeriesMetric.view_tick (tsm : TimeSeriesMetric) (h : tsm.values.view ≠ []) :
    tsm.tick.values.view = some 0 :: tsm.values.view.dropLast := by
  have hv := Ring.view_Next_of_ne_nil tsm.values h
  unfold TimeSeriesMetric.tick
  simp only
  split <;> simp [Ring.setValue, hv]

theorem TimeSeriesMetric.length_tick (tsm : TimeSeriesMetric) :
    tsm.tick.values.view.length = tsm.values.view.length := by
  unfold TimeSeriesMetric.tick
  simp only
  split <;> simp [Ring.length_setValue, Ring.length_Next]

theorem TimeSeriesMetric.AddInt64_view {tsm tsm' : TimeSeriesMetric} {delta : Int64}
    (h : tsm.AddInt64 delta = some tsm') :
    ∃ v rest, tsm.values.view = some v :: rest ∧ tsm'.values.view = some (v + delta) :: rest := by
  rcases tsm with ⟨⟨_ | ⟨_ | v, rest⟩⟩⟩
  · simp [TimeSeriesMetric.AddInt64, Ring.Value] at h
  · simp [TimeSeriesMetric.AddInt64, Ring.Value] at h
  · simp only [TimeSeriesMetric.AddInt64, Ring.Value, Ring.setValue, Option.some.injEq] at h
    subst h
    exact ⟨v, rest, rfl, rfl⟩

theorem TimeSeriesMetric.AddInt64_isSome (tsm : TimeSeriesMetric) (delta : Int64)
    (h : tsm.values.Value.isSome = true) : ∃ tsm', tsm.AddInt64 delta = some tsm' := by
  unfold TimeSeriesMetric.AddInt64
  cases hv : tsm.values.Value with
  | none => simp [hv] at h
  | some v => exact ⟨_, rfl⟩

theorem view_NewTimeSeriesMetric {points0 : Int} {s0 : TimeSeriesMetric}
    (h : NewTimeSeriesMetric points0 = some s0) :
    0 ≤ points0 ∧ s0.values.view = some 0 :: List.replicate points0.toNat none := by
  unfold NewTimeSeriesMetric at h
  cases hr : (Ring.New (points0 + 1) : Option (Ring Int64)) with
  | none => simp [hr] at h
  | some r =>
    obtain ⟨hpos, hview⟩ := Ring.view_New hr
    simp only [hr, Option.some.injEq] at h
    subst h
    have : (points0 + 1).toNat = points0.toNat + 1 := by omega
    refine ⟨by omega, ?_⟩
    simp [Ring.setValue, hview, this, List.replicate_succ]

theorem MetricInv_New {points0 : Int} {s0 : TimeSeriesMetric}
    (h : NewTimeSeriesMetric points0 = some s0) : MetricInv s0 [[]] := by
  obtain ⟨_, hview⟩ := view_NewTimeSeriesMetric h
  refine ⟨by simp [Ring.Value, hview], by simp, ?_⟩
  rw [hview]
  simp [List.take_replicate]

theorem MetricInv_AddInt64 {tsm tsm' : TimeSeriesMetric} {b : List Int64}
    {B : List (List Int64)} {delta : Int64} (hinv : MetricInv tsm (b :: B))
    (h : tsm.AddInt64 delta = some tsm') : MetricInv tsm' ((b ++ [delta]) :: B) := by
  obtain ⟨v, rest, hv, hv'⟩ := TimeSeriesMetric.AddInt64_view h
  obtain ⟨_, _, hmap⟩ := hinv
  rw [hv] at hmap
  simp only [List.map_cons, List.length_cons, List.cons_append, List.take_succ_cons,
    List.cons.injEq, Option.getD_some] at hmap
  refine ⟨by simp [Ring.Value, hv'], by simp, ?_⟩
  rw [hv']
  simp only [List.map_cons, List.length_cons, List.cons_append, List.take_succ_cons,
    List.cons.injEq, Option.getD_some]
  refine ⟨?_, hmap.2⟩
  rw [hmap.1]
  simp

theorem MetricInv_tick {tsm : TimeSeriesMetric} {B : List (List Int64)}
    (hinv : MetricInv tsm B) : MetricInv tsm.tick ([] :: B) := by
  obtain ⟨hsome, hB, hmap⟩ := hinv
  have hne : tsm.values.view ≠ [] := by
    intro h
    simp [Ring.Value, h] at hsome
  have hv := TimeSeriesMetric.view_tick tsm hne
  have hlen : tsm.values.view.length - 1 + 1 = tsm.values.view.length := by
    have := List.length_pos.mpr hne
    omega
  have hBlen : 0 < B.length := List.length_pos.mpr hB
  refine ⟨by simp [Ring.Value, hv], by simp, ?_⟩
  rw [hv]
  simp only [List.map_cons, List.length_cons, List.length_dropLast, hlen, List.cons_append,
    Option.getD_some, List.sum_nil, List.map_dropLast]
  rw [hmap, ← hlen, List.take_succ_cons, hlen, List.dropLast_take (by simp; omega)]

/-- A run from a state satisfying the invariant never panics, keeps the number
of slots and ends in a state satisfying the invariant for the extended
grouping. -/
theorem TimeSeriesMetric.run_inv (ops : List MetricOp) (tsm : TimeSeriesMetric)
    (B : List (List Int64)) (hinv : MetricInv tsm B) :
    ∃ tsm', tsm.run ops = some tsm' ∧ MetricInv tsm' (bucketDeltas B ops) ∧
      tsm'.values.view.length = tsm.values.view.length := by
  induction ops generalizing tsm B with
  | nil => exact ⟨tsm, rfl, by simpa [bucketDeltas] using hinv, rfl⟩
  | cons op ops ih =>
    cases op with
    | AddInt64 delta =>
      obtain ⟨tsm1, h1⟩ := TimeSeriesMetric.AddInt64_isSome tsm delta hinv.1
      cases B with
      | nil => exact absurd rfl hinv.2.1
      | cons b B =>
        obtain ⟨tsm', hrun, hinv', hlen⟩ := ih tsm1 _ (MetricInv_AddInt64 hinv h1)
        obtain ⟨v, rest, hv, hv'⟩ := TimeSeriesMetric.AddInt64_view h1
        refine ⟨tsm', ?_, hinv', ?_⟩
        · simp [TimeSeriesMetric.run, MetricOp.apply, h1, hrun]
        · rw [hlen, hv, hv']
          simp
    | tick =>
      obtain ⟨tsm', hrun, hinv', hlen⟩ := ih tsm.tick _ (MetricInv_tick hinv)
      refine ⟨tsm', ?_, ?_, ?_⟩
      · simp [TimeSeriesMetric.run, MetricOp.apply, hrun]
      · cases B <;> simpa [bucketDeltas] using hinv'
      · rw [hlen, TimeSeriesMetric.length_tick]

/-- Every state reached from a freshly built scalar series. -/
theorem TimeSeriesMetric.run_New {points0 : Int} {s0 : TimeSeriesMetric}
    (h : NewTimeSeriesMetric points0 = some s0) (ops : List MetricOp) :
    ∃ s, s0.run ops = some s ∧ MetricInv s (bucketDeltas [[]] ops) ∧
      s.values.Len = points0 + 1 := by
  obtain ⟨s, hrun, hinv, hlen⟩ := TimeSeriesMetric.run_inv ops s0 _ (MetricInv_New h)
  obtain ⟨hp, hview⟩ := view_NewTimeSeriesMetric h
  refine ⟨s, hrun, hinv, ?_⟩
  unfold Ring.Len
  rw [hlen, hview]
  simp
  omega

theorem length_bucketDeltas (ops : List MetricOp) (B : List (List Int64)) (hB : B ≠ []) :
    (bucketDeltas B ops).length = B.length + ops.count MetricOp.tick := by
  induction ops generalizing B with
  | nil => simp [bucketDeltas]
  | cons op ops ih =>
    cases op with
    | AddInt64 d =>
      cases B with
      | nil => exact absurd rfl hB
      | cons b B =>
        rw [bucketDeltas, ih _ (by simp)]
        simp
    | tick =>
      have h : bucketDeltas B (MetricOp.tick :: ops) = bucketDeltas ([] :: B) ops := by
        cases B <;> rfl
      rw [h, ih _ (by simp)]
      simp
      omega

theorem getElem?_sums_append_zeros (B : List (List Int64)) (n i : Nat) (h : i < n) :
    (B.map List.sum ++ List.replicate n 0)[i]? = some (B.getD i []).sum := by
  by_cases hi : i < B.length
  · rw [List.getElem?_append_left (by simpa using hi)]
    simp [List.getD_eq_getElem?_getD, List.getElem?_eq_getElem hi]
  · have hi' : B.length ≤ i := Nat.le_of_not_lt hi
    rw [List.getElem?_append_right (by simpa using hi')]
    rw [List.getD_eq_default _ _ hi', List.getElem?_replicate]
    simp
    omega

/-- The values read by `PastN` in a state satisfying the invariant. -/
theorem TimeSeriesMetric.PastN_of_inv {s : TimeSeriesMetric} {B : List (List Int64)}
    (hinv : MetricInv s B) (points : Int) (h0 : 0 ≤ points) (h1 : points ≤ s.values.Len - 1) :
    ∃ r, s.PastN points = some r ∧ (r.length : Int) = points ∧
      ∀ i : Nat, (i : Int) < points → r[i]? = some (B.getD i []).sum := by
  have hk : points.toNat ≤ s.values.view.length := by
    unfold Ring.Len at h1
    omega
  refine ⟨TimeSeriesMetric.pastLoop s.values points.toNat, ?_, ?_, ?_⟩
  · unfold TimeSeriesMetric.PastN
    rw [if_neg (by omega), if_neg (by omega)]
  · rw [TimeSeriesMetric.pastLoop_eq _ _ hk]
    simp
    omega
  · intro i hi
    have hi' : i < points.toNat := by omega
    rw [TimeSeriesMetric.pastLoop_eq _ _ hk, List.map_take, hinv.2.2, List.take_take,
      List.getElem?_take, if_pos (by omega), getElem?_sums_append_zeros _ _ _ (by omega)]

/-- C1: a scalar series built by `NewTimeSeriesMetric` with capacity `points0`
and driven by any finite sequence of `AddInt64` calls and rotations does not
panic, and in the state it reaches `PastN(points)`, for `0 <= points <= points0`,
returns exactly `points` values; the value at index `i` is the `int64` sum of
the deltas added while the bucket that is now `i` rotations old was current,
and it is 0 when fewer than `i` rotations have happened. -/
theorem C1_PastN_bucket_sums (points0 : Int) (s0 : TimeSeriesMetric) (ops : List MetricOp)
    (hnew : NewTimeSeriesMetric points0 = some s0) :
    ∃ s, s0.run ops = some s ∧
      ∀ points : Int, 0 ≤ points → points ≤ points0 →
        ∃ r, s.PastN points = some r ∧ (r.length : Int) = points ∧
          ∀ i : Nat, (i : Int) < points →
            r[i]? = some
                (Int64.ofInt (((bucketDeltas [[]] ops).getD i []).map Int64.val).sum) ∧
              (ops.count MetricOp.tick < i → r[i]? = some 0) := by
  obtain ⟨s, hrun, hinv, hlen⟩ := TimeSeriesMetric.run_New hnew ops
  refine ⟨s, hrun, ?_⟩
  intro points h0 h1
  obtain ⟨r, hr, hrl, hri⟩ := TimeSeriesMetric.PastN_of_inv hinv points h0 (by omega)
  refine ⟨r, hr, hrl, ?_⟩
  intro i hi
  refine ⟨?_, ?_⟩
  · rw [hri i hi, Int64.sum_eq_ofInt]
  · intro hticks
    rw [hri i hi, List.getD_eq_default]
    · rfl
    · rw [length_bucketDeltas _ _ (by simp)]
      simp
      omega

/-- C1 on the run of `TestTimeSeriesMetric`: capacity 16, then `AddInt64(i+1)`
followed by one rotation for `i = 0 .. 15`; `PastN(16)[j]` is `(17 - j) mod 17`. -/
theorem C1_PastN_bucket_sums_witness :
    NewTimeSeriesMetric 16 = some ⟨⟨some 0 :: List.replicate 16 none⟩⟩ ∧
      ∃ s, TimeSeriesMetric.run ⟨⟨some 0 :: List.replicate 16 none⟩⟩ (metricTestOps 16) = some s ∧
        s.PastN 16 =
          some ((List.range 16).map fun (j : Nat) => Int64.ofInt ((17 - (j : Int)) % 17)) := by
  refine ⟨by decide, ?_⟩
  obtain ⟨s, hrun, h⟩ := C1_PastN_bucket_sums 16 ⟨⟨some 0 :: List.replicate 16 none⟩⟩
    (metricTestOps 16) (by decide)
  refine ⟨s, hrun, ?_⟩
  obtain ⟨r, hr, hlen, hri⟩ := h 16 (by decide) (by decide)
  rw [hr]
  congr 1
  apply List.ext_getElem?
  intro i
  by_cases hi : i < 16
  · rw [(hri i (by omega)).1]
    interval_cases i <;> decide
  · have h1 : r[i]? = none := List.getElem?_eq_none (by omega)
    rw [h1, List.getElem?_eq_none]
    rw [List.length_map, List.length_range]
    omega

/-- C2 fails as stated at a negative `points`: on a fresh series of capacity 1,
`PastN(-1)` panics (a slice of negative length cannot be made) while
`SumPastN(-1)` returns 0, so there are no elements of `PastN(-1)` to sum. -/
theorem C2_negative_points_counterexample :
    NewTimeSeriesMetric 1 = some ⟨⟨[some 0, none]⟩⟩ ∧ (-1 : Int) ≤ 1 ∧
      TimeSeriesMetric.PastN ⟨⟨[some 0, none]⟩⟩ (-1) = none ∧
      TimeSeriesMetric.SumPastN ⟨⟨[some 0, none]⟩⟩ (-1) = some 0 := by
  decide

/-- C2 (amended): in every state reached by a scalar series of capacity
`points0`, for every `points` with `0 <= points <= points0`, both queries return
and `SumPastN(points)` is the `int64` sum of the elements of `PastN(points)`. -/
theorem C2_SumPastN_eq_sum_PastN (points0 : Int) (s0 s : TimeSeriesMetric)
    (ops : List MetricOp) (hnew : NewTimeSeriesMetric points0 = some s0)
    (hrun : s0.run ops = some s) (points : Int) (h0 : 0 ≤ points) (h1 : points ≤ points0) :
    ∃ r, s.PastN points = some r ∧ s.SumPastN points = some r.sum := by
  obtain ⟨s', hrun', _, hlen⟩ := TimeSeriesMetric.run_New hnew ops
  rw [hrun] at hrun'
  cases hrun'
  have hk : points.toNat ≤ s.values.view.length := by
    unfold Ring.Len at hlen
    omega
  refine ⟨TimeSeriesMetric.pastLoop s.values points.toNat, ?_, ?_⟩
  · unfold TimeSeriesMetric.PastN
    rw [if_neg (by omega), if_neg (by omega)]
  · unfold TimeSeriesMetric.SumPastN
    rw [if_neg (by omega), TimeSeriesMetric.sumLoop_eq _ _ _ hk,
      TimeSeriesMetric.pastLoop_eq _ _ hk, zero_add]

/-- C2 (amended) on a concrete run: capacity 2, `AddInt64(5)`, rotation,
`AddInt64(7)`, and `points = 2`. -/
theorem C2_SumPastN_eq_sum_PastN_witness :
    ∃ r, TimeSeriesMetric.PastN ⟨⟨[some (Int64.ofInt 7), some (Int64.ofInt 5), none]⟩⟩ 2 = some r ∧
      TimeSeriesMetric.SumPastN ⟨⟨[some (Int64.ofInt 7), some (Int64.ofInt 5), none]⟩⟩ 2 =
        some r.sum :=
  C2_SumPastN_eq_sum_PastN 2 ⟨⟨[some 0, none, none]⟩⟩ _
    [.AddInt64 (Int64.ofInt 5), .tick, .AddInt64 (Int64.ofInt 7)] (by decide) (by decide) 2
    (by decide) (by decide)

/-- C8: in every state reached by a scalar series of capacity `points0`, for
every delta and every `points` with `1 <= points <= points0`, `AddInt64(delta)`
returns, `PastN(points)[0]` afterwards is its value before plus `delta` (`int64`
addition), `PastN(points)[i]` is unchanged for `1 <= i < points`, and the ring is
not rotated: it keeps its length and every slot other than the current one
keeps its place and its content. -/
theorem C8_AddInt64_frame (points0 : Int) (s0 s : TimeSeriesMetric) (ops : List MetricOp)
    (hnew : NewTimeSeriesMetric points0 = some s0) (hrun : s0.run ops = some s)
    (delta : Int64) (points : Int) (h1 : 1 ≤ points) (h2 : points ≤ points0) :
    ∃ s', s.AddInt64 delta = some s' ∧
      (∃ r r' v, s.PastN points = some r ∧ s'.PastN points = some r' ∧
        r[0]? = some v ∧ r'[0]? = some (v + delta) ∧
        ∀ i : Nat, 1 ≤ i → (i : Int) < points → r'[i]? = r[i]?) ∧
      s'.values.Len = s.values.Len ∧
      ∀ i : Nat, 1 ≤ i → (i : Int) ≤ points0 → s'.values.slotAt i = s.values.slotAt i := by
  obtain ⟨s1, hrun', hinv, hlen⟩ := TimeSeriesMetric.run_New hnew ops
  rw [hrun] at hrun'
  cases hrun'
  obtain ⟨s', hadd⟩ := TimeSeriesMetric.AddInt64_isSome s delta hinv.1
  obtain ⟨v, rest, hv, hv'⟩ := TimeSeriesMetric.AddInt64_view hadd
  have hlen' : s'.values.Len = s.values.Len := by
    unfold Ring.Len
    rw [hv, hv']
    simp
  have hL : (s.values.view.length : Int) = points0 + 1 := hlen
  have hL' : (s'.values.view.length : Int) = points0 + 1 := by
    rw [← hlen]
    exact hlen'
  have hk : points.toNat ≤ s.values.view.length := by omega
  have hk' : points.toNat ≤ s'.values.view.length := by omega
  obtain ⟨k, hkp⟩ : ∃ k, points.toNat = k + 1 := ⟨points.toNat - 1, by omega⟩
  refine ⟨s', hadd, ⟨TimeSeriesMetric.pastLoop s.values points.toNat,
    TimeSeriesMetric.pastLoop s'.values points.toNat, v, ?_, ?_, ?_, ?_, ?_⟩, hlen', ?_⟩
  · unfold TimeSeriesMetric.PastN
    rw [if_neg (by omega), if_neg (by omega)]
  · unfold TimeSeriesMetric.PastN
    rw [if_neg (by omega), if_neg (by omega)]
  · rw [TimeSeriesMetric.pastLoop_eq _ _ hk, hv, hkp]
    simp
  · rw [TimeSeriesMetric.pastLoop_eq _ _ hk', hv', hkp]
    simp
  · intro i hi1 hi2
    obtain ⟨j, rfl⟩ : ∃ j, i = j + 1 := ⟨i - 1, by omega⟩
    rw [TimeSeriesMetric.pastLoop_eq _ _ hk, TimeSeriesMetric.pastLoop_eq _ _ hk', hv, hv', hkp]
    simp
  · intro i hi1 hi2
    obtain ⟨j, rfl⟩ : ∃ j, i = j + 1 := ⟨i - 1, by omega⟩
    rw [Ring.slotAt_eq _ _ (by omega), Ring.slotAt_eq _ _ (by omega), hv, hv']
    simp

/-- C8 on a concrete run: capacity 2, `AddInt64(5)`, rotation, then the call
`AddInt64(-3)` observed through `PastN(2)`. -/
theorem C8_AddInt64_frame_witness :
    ∃ s', TimeSeriesMetric.AddInt64 ⟨⟨[some 0, some (Int64.ofInt 5), none]⟩⟩ (Int64.ofInt (-3)) =
        some s' ∧
      (∃ r r' v, TimeSeriesMetric.PastN ⟨⟨[some 0, some (Int64.ofInt 5), none]⟩⟩ 2 = some r ∧
        s'.PastN 2 = some r' ∧ r[0]? = some v ∧ r'[0]? = some (v + Int64.ofInt (-3)) ∧
        ∀ i : Nat, 1 ≤ i → (i : Int) < 2 → r'[i]? = r[i]?) ∧
      s'.values.Len = (3 : Int) ∧
      ∀ i : Nat, 1 ≤ i → (i : Int) ≤ 2 →
        s'.values.slotAt i = Ring.slotAt ⟨[some 0, some (Int64.ofInt 5), none]⟩ i :=
  C8_AddInt64_frame 2 ⟨⟨[some 0, none, none]⟩⟩ _ [.AddInt64 (Int64.ofInt 5), .tick]
    (by decide) (by decide) (Int64.ofInt (-3)) 2 (by decide) (by decide)

/-! ## Map lemmas -/

theorem GoMap.find_eq_none_iff (m : GoMap) (key : String) :
    GoMap.find m key = none ↔ key ∉ m.map Prod.fst := by
  induction m with
  | nil => simp [GoMap.find]
  | cons e m ih =>
    rcases e with ⟨k, t⟩
    by_cases h : k = key
    · simp [GoMap.find, h]
    · simp [GoMap.find, h, ih, Ne.symm h]

theorem GoMap.mem_of_find {m : GoMap} {key : String} {t : Tuple}
    (h : GoMap.find m key = some t) : (key, t) ∈ m := by
  induction m with
  | nil => simp [GoMap.find] at h
  | cons e m ih =>
    rcases e with ⟨k, t'⟩
    by_cases hk : k = key
    · simp [GoMap.find, hk] at h
      simp [hk, h]
    · simp only [GoMap.find, hk, if_false] at h
      exact List.mem_cons_of_mem _ (ih h)

theorem GoMap.find_of_mem {m : GoMap} {key : String} {t : Tuple}
    (hnd : (m.map Prod.fst).Nodup) (h : (key, t) ∈ m) : GoMap.find m key = some t := by
  induction m with
  | nil => simp at h
  | cons e m ih =>
    rcases e with ⟨k, t'⟩
    simp only [List.map_cons, List.nodup_cons] at hnd
    rcases List.mem_cons.mp h with h | h
    · cases h
      simp [GoMap.find]
    · have hk : k ≠ key := by
        rintro rfl
        exact hnd.1 (List.mem_map.mpr ⟨_, h, rfl⟩)
      simp only [GoMap.find, hk, if_false]
      exact ih hnd.2 h

theorem GoMap.find_perm {l m : GoMap} (hp : l.Perm m) (hnd : (m.map Prod.fst).Nodup)
    (key : String) : GoMap.find l key = GoMap.find m key := by
  have hndl : (l.map Prod.fst).Nodup := (hp.map Prod.fst).nodup_iff.mpr hnd
  cases h : GoMap.find m key with
  | none =>
    rw [GoMap.find_eq_none_iff] at h ⊢
    intro hmem
    exact h ((hp.map Prod.fst).mem_iff.mp hmem)
  | some t => exact GoMap.find_of_mem hndl (hp.mem_iff.mpr (GoMap.mem_of_find h))

theorem GoMap.find_store (m : GoMap) (key : String) (t : Tuple) (key' : String) :
    GoMap.find (GoMap.store m key t) key' = if key' = key then some t else GoMap.find m key' := by
  induction m with
  | nil =>
    by_cases h : key' = key
    · simp [GoMap.store, GoMap.find, h]
    · simp [GoMap.store, GoMap.find, h, Ne.symm h]
  | cons e m ih =>
    rcases e with ⟨k, t'⟩
    by_cases hk : k = key
    · by_cases h : key' = key
      · simp [GoMap.store, GoMap.find, hk, h]
      · simp [GoMap.store, GoMap.find, hk, h, Ne.symm h]
    · by_cases h : key' = key
      · subst h
        simp [GoMap.store, GoMap.find, hk, ih]
      · simp only [GoMap.store, hk, if_false, GoMap.find, ih, h]

theorem GoMap.mem_store {m : GoMap} {key : String} {t : Tuple} {e : String × Tuple}
    (h : e ∈ GoMap.store m key t) : e = (key, t) ∨ e ∈ m := by
  induction m with
  | nil => simpa [GoMap.store] using h
  | cons e' m ih =>
    rcases e' with ⟨k, t'⟩
    by_cases hk : k = key
    · simp only [GoMap.store, hk, if_true, List.mem_cons] at h
      rcases h with h | h
      · exact Or.inl h
      · exact Or.inr (List.mem_cons_of_mem _ h)
    · simp only [GoMap.store, hk, if_false, List.mem_cons] at h
      rcases h with h | h
      · subst h
        exact Or.inr (List.mem_cons_self _ _)
      · rcases ih h with h | h
        · exact Or.inl h
        · exact Or.inr (List.mem_cons_of_mem _ h)

theorem GoMap.keys_store (m : GoMap) (key : String) (t : Tuple) :
    (GoMap.store m key t).map Prod.fst =
      if key ∈ m.map Prod.fst then m.map Prod.fst else m.map Prod.fst ++ [key] := by
  induction m with
  | nil => simp [GoMap.store]
  | cons e m ih =>
    rcases e with ⟨k, t'⟩
    by_cases hk : k = key
    · simp [GoMap.store, hk]
    · simp only [GoMap.store, hk, if_false, List.map_cons, ih, List.mem_cons, Ne.symm hk,
        false_or]
      split <;> simp

theorem GoMap.WF_store {m : GoMap} (h : GoMap.WF m) (key : String) (t : Tuple)
    (ht : t.Key = key) : GoMap.WF (GoMap.store m key t) := by
  refine ⟨?_, ?_⟩
  · rw [GoMap.keys_store]
    split
    · exact h.1
    · rename_i hk
      exact List.Nodup.append h.1 (List.nodup_singleton _) (by simpa using hk)
  · intro e he
    rcases GoMap.mem_store he with rfl | he
    · exact ht
    · exact h.2 e he

theorem GoMap.WF_nil : GoMap.WF [] := ⟨by simp, by simp⟩

theorem GoMap.WF_perm {l m : GoMap} (hp : l.Perm m) (h : GoMap.WF m) : GoMap.WF l :=
  ⟨(hp.map Prod.fst).nodup_iff.mpr h.1, fun e he => h.2 e (hp.mem_iff.mp he)⟩

theorem GoMap.index_store (m : GoMap) (key : String) (t : Tuple) (key' : String) :
    GoMap.index (GoMap.store m key t) key' = if key' = key then t else GoMap.index m key' := by
  unfold GoMap.index
  rw [GoMap.find_store]
  split <;> rfl

/-! ## Top-K series lemmas -/

theorem TimeSeriesTopK.topK_view_tick (tsm : TimeSeriesTopK) (h : tsm.values.view ≠ []) :
    tsm.tick.values.view = some [] :: tsm.values.view.dropLast := by
  have hv := Ring.view_Next_of_ne_nil tsm.values h
  simp [TimeSeriesTopK.tick, Ring.setValue, hv]

theorem TimeSeriesTopK.topK_length_tick (tsm : TimeSeriesTopK) :
    tsm.tick.values.view.length = tsm.values.view.length := by
  simp [TimeSeriesTopK.tick, Ring.length_setValue, Ring.length_Next]

/-- Effect of `AddInt64` on the ring: only the map of the current slot changes,
by one store under `key`. -/
theorem TimeSeriesTopK.topK_AddInt64_view {tsm tsm' : TimeSeriesTopK} {key : String} {delta : Int64}
    (h : tsm.AddInt64 key delta = some tsm') :
    ∃ m rest, tsm.values.view = some m :: rest ∧
      tsm'.values.view =
        some (GoMap.store m key ⟨key, (GoMap.index m key).Value + delta⟩) :: rest := by
  rcases tsm with ⟨⟨_ | ⟨_ | m, rest⟩⟩⟩
  · simp [TimeSeriesTopK.AddInt64, Ring.Value] at h
  · simp [TimeSeriesTopK.AddInt64, Ring.Value] at h
  · refine ⟨m, rest, rfl, ?_⟩
    simp only [TimeSeriesTopK.AddInt64, Ring.Value] at h
    cases hf : GoMap.find m key with
    | none =>
      simp only [hf, Option.some.injEq] at h
      subst h
      have hz : (default : Tuple).Value + delta = delta := zero_add delta
      simp [Ring.setValue, GoMap.index, hf, hz]
    | some v =>
      simp only [hf, Option.some.injEq] at h
      subst h
      simp [Ring.setValue, GoMap.index, hf]

theorem TimeSeriesTopK.topK_AddInt64_isSome (tsm : TimeSeriesTopK) (key : String) (delta : Int64)
    (h : tsm.values.Value.isSome = true) : ∃ tsm', tsm.AddInt64 key delta = some tsm' := by
  unfold TimeSeriesTopK.AddInt64
  cases hv : tsm.values.Value with
  | none => simp [hv] at h
  | some m =>
    simp only
    cases GoMap.find m key <;> exact ⟨_, rfl⟩

theorem view_NewTimeSeriesTopK {points0 : Int} {s0 : TimeSeriesTopK}
    (h : NewTimeSeriesTopK points0 = some s0) :
    0 ≤ points0 ∧ s0.values.view = some [] :: List.replicate points0.toNat none := by
  unfold NewTimeSeriesTopK at h
  cases hr : (Ring.New (points0 + 1) : Option (Ring GoMap)) with
  | none => simp [hr] at h
  | some r =>
    obtain ⟨hpos, hview⟩ := Ring.view_New hr
    simp only [hr, Option.some.injEq] at h
    subst h
    have : (points0 + 1).toNat = points0.toNat + 1 := by omega
    refine ⟨by omega, ?_⟩
    simp [Ring.setValue, hview, this, List.replicate_succ]

theorem TopKInv_New {points0 : Int} {s0 : TimeSeriesTopK}
    (h : NewTimeSeriesTopK points0 = some s0) : TopKInv s0 := by
  obtain ⟨_, hview⟩ := view_NewTimeSeriesTopK h
  refine ⟨by simp [Ring.Value, hview], ?_⟩
  intro m hm
  rw [hview] at hm
  simp only [List.mem_cons, Option.some.injEq, List.mem_replicate] at hm
  rcases hm with rfl | ⟨_, hm⟩
  · exact GoMap.WF_nil
  · cases hm

theorem TopKInv_AddInt64 {tsm tsm' : TimeSeriesTopK} {key : String} {delta : Int64}
    (hinv : TopKInv tsm) (h : tsm.AddInt64 key delta = some tsm') : TopKInv tsm' := by
  obtain ⟨m, rest, hv, hv'⟩ := TimeSeriesTopK.topK_AddInt64_view h
  refine ⟨by simp [Ring.Value, hv'], ?_⟩
  intro m' hm'
  rw [hv'] at hm'
  rcases List.mem_cons.mp hm' with hm' | hm'
  · cases hm'
    exact GoMap.WF_store (hinv.2 m (by rw [hv]; exact List.mem_cons_self _ _)) _ _ rfl
  · exact hinv.2 m' (by rw [hv]; exact List.mem_cons_of_mem _ hm')

theorem TopKInv_ne_nil {tsm : TimeSeriesTopK} (hinv : TopKInv tsm) : tsm.values.view ≠ [] := by
  intro h
  have := hinv.1
  simp [Ring.Value, h] at this

theorem TopKInv_tick {tsm : TimeSeriesTopK} (hinv : TopKInv tsm) : TopKInv tsm.tick := by
  have hv := TimeSeriesTopK.topK_view_tick tsm (TopKInv_ne_nil hinv)
  refine ⟨by simp [Ring.Value, hv], ?_⟩
  intro m hm
  rw [hv] at hm
  rcases List.mem_cons.mp hm with hm | hm
  · cases hm
    exact GoMap.WF_nil
  · exact hinv.2 m (List.mem_of_mem_dropLast hm)

/-- A run from a state satisfying the invariant never panics, keeps the number
of slots and preserves the invariant. -/
theorem TimeSeriesTopK.topK_run_inv (ops : List TopKOp) (tsm : TimeSeriesTopK) (hinv : TopKInv tsm) :
    ∃ tsm', tsm.run ops = some tsm' ∧ TopKInv tsm' ∧
      tsm'.values.view.length = tsm.values.view.length := by
  induction ops generalizing tsm with
  | nil => exact ⟨tsm, rfl, hinv, rfl⟩
  | cons op ops ih =>
    cases op with
    | AddInt64 key delta =>
      obtain ⟨tsm1, h1⟩ := TimeSeriesTopK.topK_AddInt64_isSome tsm key delta hinv.1
      obtain ⟨tsm', hrun, hinv', hlen⟩ := ih tsm1 (TopKInv_AddInt64 hinv h1)
      obtain ⟨m, rest, hv, hv'⟩ := TimeSeriesTopK.topK_AddInt64_view h1
      refine ⟨tsm', ?_, hinv', ?_⟩
      · simp [TimeSeriesTopK.run, TopKOp.apply, h1, hrun]
      · rw [hlen, hv, hv']
        simp
    | tick =>
      obtain ⟨tsm', hrun, hinv', hlen⟩ := ih tsm.tick (TopKInv_tick hinv)
      refine ⟨tsm', ?_, hinv', ?_⟩
      · simp [TimeSeriesTopK.run, TopKOp.apply, hrun]
      · rw [hlen, TimeSeriesTopK.topK_length_tick]

/-- Every state reached from a freshly built top-K series. -/
theorem TimeSeriesTopK.topK_run_New {points0 : Int} {s0 : TimeSeriesTopK}
    (h : NewTimeSeriesTopK points0 = some s0) (ops : List TopKOp) :
    ∃ s, s0.run ops = some s ∧ TopKInv s ∧ s.values.Len = points0 + 1 := by
  obtain ⟨s, hrun, hinv, hlen⟩ := TimeSeriesTopK.topK_run_inv ops s0 (TopKInv_New h)
  obtain ⟨hp, hview⟩ := view_NewTimeSeriesTopK h
  refine ⟨s, hrun, hinv, ?_⟩
  unfold Ring.Len
  rw [hlen, hview]
  simp
  omega

/-- C3: in every state reached by a series of either kind with capacity
`points0`, for every `points > points0` each of the four queries (scalar
`PastN`, scalar `SumPastN`, top-K `PastN`, top-K `SumPastN`) panics: it returns
no result, truncated or otherwise. -/
theorem C3_points_above_capacity_panic (points0 : Int)
    (m0 m : TimeSeriesMetric) (mops : List MetricOp)
    (t0 t : TimeSeriesTopK) (tops : List TopKOp) (srt : Sorter) (ro : RangeOrder)
    (hm0 : NewTimeSeriesMetric points0 = some m0) (hm : m0.run mops = some m)
    (ht0 : NewTimeSeriesTopK points0 = some t0) (ht : t0.run tops = some t)
    (points : Int) (h : points0 < points) :
    m.PastN points = none ∧ m.SumPastN points = none ∧
      t.PastN srt ro points = none ∧ t.SumPastN srt ro points = none := by
  obtain ⟨m', hm', _, hmlen⟩ := TimeSeriesMetric.run_New hm0 mops
  rw [hm] at hm'
  cases hm'
  obtain ⟨t', ht', _, htlen⟩ := TimeSeriesTopK.topK_run_New ht0 tops
  rw [ht] at ht'
  cases ht'
  refine ⟨?_, ?_, ?_, ?_⟩
  · unfold TimeSeriesMetric.PastN
    rw [if_pos (by omega)]
  · unfold TimeSeriesMetric.SumPastN
    rw [if_pos (by omega)]
  · unfold TimeSeriesTopK.PastN
    rw [if_pos (by omega)]
  · unfold TimeSeriesTopK.SumPastN
    rw [if_pos (by omega)]

/-- C3 on concrete runs: capacity 2, one write and one rotation on each series,
and `points = 3`. -/
theorem C3_points_above_capacity_panic_witness :
    TimeSeriesMetric.PastN ⟨⟨[some 0, some (Int64.ofInt 5), none]⟩⟩ 3 = none ∧
      TimeSeriesMetric.SumPastN ⟨⟨[some 0, some (Int64.ofInt 5), none]⟩⟩ 3 = none ∧
      TimeSeriesTopK.PastN insertionSorter RangeOrder.stored
        ⟨⟨[some [], some [("a", ⟨"a", Int64.ofInt 5⟩)], none]⟩⟩ 3 = none ∧
      TimeSeriesTopK.SumPastN insertionSorter RangeOrder.stored
        ⟨⟨[some [], some [("a", ⟨"a", Int64.ofInt 5⟩)], none]⟩⟩ 3 = none :=
  C3_points_above_capacity_panic 2 ⟨⟨[some 0, none, none]⟩⟩ _ [.AddInt64 (Int64.ofInt 5), .tick]
    ⟨⟨[some [], none, none]⟩⟩ _ [.AddInt64 "a" (Int64.ofInt 5), .tick]
    insertionSorter RangeOrder.stored (by decide) (by decide) (by decide) (by decide) 3
    (by decide)

/-- C7: in every state reached by a top-K series, for every key `k` and delta
`d`: the current slot holds a map and `GetCurr(k)` returns the value stored for
`k` in it, 0 when `k` is absent; `AddInt64(k, d)` returns, after it `GetCurr(k)`
is the value before plus `d` (`int64` addition), which is `d` when `k` was
absent, and `GetCurr(k')` is unchanged for every other key `k'`. -/
theorem C7_GetCurr_AddInt64 (points0 : Int) (s0 s : TimeSeriesTopK) (ops : List TopKOp)
    (hnew : NewTimeSeriesTopK points0 = some s0) (hrun : s0.run ops = some s)
    (k : String) (d : Int64) :
    ∃ m v, s.values.Value = some m ∧ s.GetCurr k = some v ∧
      v = (match GoMap.find m k with
        | some t => t.Value
        | none => 0) ∧
      ∃ s', s.AddInt64 k d = some s' ∧ s'.GetCurr k = some (v + d) ∧
        (GoMap.find m k = none → s'.GetCurr k = some d) ∧
        ∀ k', k' ≠ k → s'.GetCurr k' = s.GetCurr k' := by
  obtain ⟨s1, hrun', hinv, _⟩ := TimeSeriesTopK.topK_run_New hnew ops
  rw [hrun] at hrun'
  cases hrun'
  obtain ⟨s', hadd⟩ := TimeSeriesTopK.topK_AddInt64_isSome s k d hinv.1
  obtain ⟨m, rest, hv, hv'⟩ := TimeSeriesTopK.topK_AddInt64_view hadd
  have hval : s.values.Value = some m := by simp [Ring.Value, hv]
  have hval' : s'.values.Value =
      some (GoMap.store m k ⟨k, (GoMap.index m k).Value + d⟩) := by simp [Ring.Value, hv']
  have hget : ∀ key, s.GetCurr key = some (GoMap.index m key).Value := by
    intro key
    simp [TimeSeriesTopK.GetCurr, hval]
  have hget' : ∀ key, s'.GetCurr key =
      some (GoMap.index (GoMap.store m k ⟨k, (GoMap.index m k).Value + d⟩) key).Value := by
    intro key
    simp [TimeSeriesTopK.GetCurr, hval']
  refine ⟨m, (GoMap.index m k).Value, hval, hget k, ?_, s', hadd, ?_, ?_, ?_⟩
  · unfold GoMap.index
    cases GoMap.find m k <;> rfl
  · rw [hget', GoMap.index_store, if_pos rfl]
  · intro hnone
    have hz : (default : Tuple).Value + d = d := zero_add d
    rw [hget', GoMap.index_store, if_pos rfl]
    simp [GoMap.index, hnone, hz]
  · intro k' hk'
    rw [hget', hget, GoMap.index_store, if_neg hk']

/-- C7 on a concrete run: capacity 1, `AddInt64("a", 5)`, `AddInt64("b", 2)`,
then the call `AddInt64("a", -7)`. -/
theorem C7_GetCurr_AddInt64_witness :
    ∃ m v, Ring.Value (⟨[some [("a", ⟨"a", Int64.ofInt 5⟩), ("b", ⟨"b", Int64.ofInt 2⟩)], none]⟩ :
          Ring GoMap) = some m ∧
      TimeSeriesTopK.GetCurr
        ⟨⟨[some [("a", ⟨"a", Int64.ofInt 5⟩), ("b", ⟨"b", Int64.ofInt 2⟩)], none]⟩⟩ "a" = some v ∧
      v = (match GoMap.find m "a" with
        | some t => t.Value
        | none => 0) ∧
      ∃ s', TimeSeriesTopK.AddInt64
          ⟨⟨[some [("a", ⟨"a", Int64.ofInt 5⟩), ("b", ⟨"b", Int64.ofInt 2⟩)], none]⟩⟩ "a"
          (Int64.ofInt (-7)) = some s' ∧
        s'.GetCurr "a" = some (v + Int64.ofInt (-7)) ∧
        (GoMap.find m "a" = none → s'.GetCurr "a" = some (Int64.ofInt (-7))) ∧
        ∀ k', k' ≠ "a" → s'.GetCurr k' = TimeSeriesTopK.GetCurr
          ⟨⟨[some [("a", ⟨"a", Int64.ofInt 5⟩), ("b", ⟨"b", Int64.ofInt 2⟩)], none]⟩⟩ k' :=
  C7_GetCurr_AddInt64 1 ⟨⟨[some [], none]⟩⟩ _
    [.AddInt64 "a" (Int64.ofInt 5), .AddInt64 "b" (Int64.ofInt 2)] (by decide) (by decide) "a"
    (Int64.ofInt (-7))

theorem TimeSeriesTopK.length_pastLoop (srt : Sorter) (ro : RangeOrder) (k i0 : Nat)
    (r : Ring GoMap) : (TimeSeriesTopK.pastLoop srt ro i0 r k).length = k := by
  induction k generalizing i0 r with
  | zero => rfl
  | succ k ih => simp [TimeSeriesTopK.pastLoop, ih]

/-- The snapshot at index `j` of the loop of `PastN`: the sorted values of the
map found `j` steps back, as visited by the `range` of iteration `i0 + j`. -/
theorem TimeSeriesTopK.getElem?_pastLoop (srt : Sorter) (ro : RangeOrder) (k i0 : Nat)
    (r : Ring GoMap) (j : Nat) (hj : j < k) (hk : k ≤ r.view.length) :
    (TimeSeriesTopK.pastLoop srt ro i0 r k)[j]? =
      some (match (r.view[j]?).join with
        | some v => srt.sort ((ro.order (i0 + j) v).map Prod.snd)
        | none => []) := by
  induction k generalizing i0 r j with
  | zero => omega
  | succ k ih =>
    rcases r with ⟨_ | ⟨v, rest⟩⟩
    · simp at hk
    · simp only [List.length_cons] at hk
      cases j with
      | zero => cases v <;> simp [TimeSeriesTopK.pastLoop, Ring.Value, Option.join]
      | succ j =>
        rw [TimeSeriesTopK.pastLoop, List.getElem?_cons_succ,
          ih (i0 + 1) _ j (by omega) (by rw [Ring.length_Prev]; simpa using by omega),
          Ring.view_Prev_cons, List.getElem?_append_left (by omega), List.getElem?_cons_succ]
        have : i0 + 1 + j = i0 + (j + 1) := by omega
        rw [this]

theorem GoMap.entries_eq_of_WF {m : GoMap} (h : GoMap.WF m) : GoMap.entries m = m.map Prod.snd := by
  unfold GoMap.entries
  apply List.map_congr_left
  intro e he
  rw [← h.2 e he]

/-- C6: in every state reached by a top-K series of capacity `points0`, for
every `points` with `0 <= points <= points0` and whatever the iteration order
of `range` and the tie-breaking of the sort, `PastN(points)` returns exactly
`points` snapshots, and the snapshot at index `i` is a permutation of the
`(key, value)` entries of the map of the slot that is `i` rotations old, sorted
by `Value` in non-increasing order. -/
theorem C6_PastN_sorted_snapshots (srt : Sorter) (ro : RangeOrder) (points0 : Int)
    (s0 s : TimeSeriesTopK) (ops : List TopKOp) (hnew : NewTimeSeriesTopK points0 = some s0)
    (hrun : s0.run ops = some s) (points : Int) (h0 : 0 ≤ points) (h1 : points ≤ points0) :
    ∃ r, s.PastN srt ro points = some r ∧ (r.length : Int) = points ∧
      ∀ i : Nat, (i : Int) < points →
        ∃ snap, r[i]? = some snap ∧
          snap.Perm (GoMap.entries ((s.values.slotAt i).getD [])) ∧
          snap.Pairwise (fun a b => b.Value.val ≤ a.Value.val) := by
  obtain ⟨s1, hrun', hinv, hlen⟩ := TimeSeriesTopK.topK_run_New hnew ops
  rw [hrun] at hrun'
  cases hrun'
  have hL : (s.values.view.length : Int) = points0 + 1 := hlen
  have hk : points.toNat ≤ s.values.view.length := by omega
  refine ⟨TimeSeriesTopK.pastLoop srt ro 0 s.values points.toNat, ?_, ?_, ?_⟩
  · unfold TimeSeriesTopK.PastN
    rw [if_neg (by unfold Ring.Len; omega), if_neg (by omega)]
  · rw [TimeSeriesTopK.length_pastLoop]
    omega
  · intro i hi
    have hil : i < s.values.view.length := by omega
    refine ⟨_, TimeSeriesTopK.getElem?_pastLoop srt ro _ 0 _ i (by omega) hk, ?_, ?_⟩
    · rw [Ring.slotAt_eq _ _ hil]
      cases hv : (s.values.view[i]?).join with
      | none => simp [GoMap.entries]
      | some m =>
        have hmem : some m ∈ s.values.view := by
          rw [List.getElem?_eq_getElem hil] at hv
          simp only [Option.join, Option.bind_eq_bind, Option.some_bind, id_eq] at hv
          rw [← hv]
          exact List.getElem_mem _
        simp only [Option.getD_some]
        rw [GoMap.entries_eq_of_WF (hinv.2 m hmem)]
        exact (srt.perm _).trans ((ro.perm _ m).map Prod.snd)
    · cases hv : (s.values.view[i]?).join with
      | none => simp
      | some m =>
        refine (srt.sorted _).imp ?_
        intro a b hab
        unfold Tuples.Less at hab
        omega

/-- C6 on a concrete run: capacity 2, `AddInt64("a", 5)`, `AddInt64("b", 9)`,
rotation, `AddInt64("c", 1)`, read with `points = 2`, insertion sort and maps
visited backwards. -/
theorem C6_PastN_sorted_snapshots_witness :
    ∃ r, TimeSeriesTopK.PastN insertionSorter RangeOrder.backwards
        ⟨⟨[some [("c", ⟨"c", Int64.ofInt 1⟩)],
          some [("a", ⟨"a", Int64.ofInt 5⟩), ("b", ⟨"b", Int64.ofInt 9⟩)], none]⟩⟩ 2 = some r ∧
      (r.length : Int) = 2 ∧
      ∀ i : Nat, (i : Int) < 2 →
        ∃ snap, r[i]? = some snap ∧
          snap.Perm (GoMap.entries ((Ring.slotAt (⟨[some [("c", ⟨"c", Int64.ofInt 1⟩)],
            some [("a", ⟨"a", Int64.ofInt 5⟩), ("b", ⟨"b", Int64.ofInt 9⟩)], none]⟩ :
              Ring GoMap) i).getD [])) ∧
          snap.Pairwise (fun a b => b.Value.val ≤ a.Value.val) :=
  C6_PastN_sorted_snapshots insertionSorter RangeOrder.backwards 2 ⟨⟨[some [], none, none]⟩⟩ _
    [.AddInt64 "a" (Int64.ofInt 5), .AddInt64 "b" (Int64.ofInt 9), .tick,
      .AddInt64 "c" (Int64.ofInt 1)] (by decide) (by decide) 2 (by decide) (by decide)

/-! ## Merging the maps of a window -/

theorem TimeSeriesTopK.mergeEntry_eq (master : GoMap) (e : String × Tuple) :
    TimeSeriesTopK.mergeEntry master e =
      GoMap.store master e.1 ⟨e.2.Key, e.2.Value + (GoMap.index master e.1).Value⟩ := by
  unfold TimeSeriesTopK.mergeEntry
  cases h : GoMap.find master e.1 with
  | some v => rfl
  | none =>
    have hz : e.2.Value + (default : Tuple).Value = e.2.Value := add_zero _
    simp [GoMap.index, h, hz]

theorem TimeSeriesTopK.find_foldl_mergeEntry (l : GoMap) (hnd : (l.map Prod.fst).Nodup)
    (master : GoMap) (key : String) :
    GoMap.find (l.foldl TimeSeriesTopK.mergeEntry master) key =
      match GoMap.find l key with
      | some v => some ⟨v.Key, v.Value + (GoMap.index master key).Value⟩
      | none => GoMap.find master key := by
  induction l generalizing master with
  | nil => simp [GoMap.find]
  | cons e l ih =>
    rcases e with ⟨k, t⟩
    simp only [List.map_cons, List.nodup_cons] at hnd
    rw [List.foldl_cons, ih hnd.2, TimeSeriesTopK.mergeEntry_eq]
    by_cases hk : k = key
    · subst hk
      have hnone : GoMap.find l k = none := (GoMap.find_eq_none_iff l k).mpr hnd.1
      simp [hnone, GoMap.find, GoMap.find_store]
    · have hk' : key ≠ k := Ne.symm hk
      simp only [GoMap.find, hk, if_false, GoMap.index_store, GoMap.find_store, hk']

theorem TimeSeriesTopK.WF_foldl_mergeEntry (l : GoMap) (hl : ∀ e ∈ l, e.2.Key = e.1)
    (master : GoMap) (hm : GoMap.WF master) :
    GoMap.WF (l.foldl TimeSeriesTopK.mergeEntry master) := by
  induction l generalizing master with
  | nil => exact hm
  | cons e l ih =>
    rw [List.foldl_cons]
    apply ih (fun e' he' => hl e' (List.mem_cons_of_mem _ he'))
    rw [TimeSeriesTopK.mergeEntry_eq]
    exact GoMap.WF_store hm _ _ (hl e (List.mem_cons_self _ _))

/-- Merging one well-formed slot map, visited in any order, into `master`: the
merged value of every key is the slot's value plus the value in `master`, and
a key is present afterwards exactly when it was present in either. -/
theorem TimeSeriesTopK.merge_slot (ro : RangeOrder) (i : Nat) (m master : GoMap)
    (hm : GoMap.WF m) (hmaster : GoMap.WF master) (key : String) :
    GoMap.WF ((ro.order i m).foldl TimeSeriesTopK.mergeEntry master) ∧
      (GoMap.index ((ro.order i m).foldl TimeSeriesTopK.mergeEntry master) key).Value =
        (GoMap.index m key).Value + (GoMap.index master key).Value ∧
      (key ∈ ((ro.order i m).foldl TimeSeriesTopK.mergeEntry master).map Prod.fst ↔
        key ∈ m.map Prod.fst ∨ key ∈ master.map Prod.fst) := by
  have hwf : GoMap.WF (ro.order i m) := GoMap.WF_perm (ro.perm i m) hm
  have hfind := TimeSeriesTopK.find_foldl_mergeEntry (ro.order i m) hwf.1 master key
  rw [GoMap.find_perm (ro.perm i m) hm.1] at hfind
  refine ⟨TimeSeriesTopK.WF_foldl_mergeEntry _ hwf.2 _ hmaster, ?_, ?_⟩
  · unfold GoMap.index at *
    rw [hfind]
    cases hf : GoMap.find m key with
    | none =>
      have hz : (default : Tuple).Value + ((GoMap.find master key).getD default).Value =
          ((GoMap.find master key).getD default).Value := zero_add _
      simp [hz]
    | some v => simp
  · have h1 := GoMap.find_eq_none_iff ((ro.order i m).foldl TimeSeriesTopK.mergeEntry master) key
    have h2 := GoMap.find_eq_none_iff m key
    have h3 := GoMap.find_eq_none_iff master key
    rw [hfind] at h1
    cases hf : GoMap.find m key with
    | none =>
      rw [hf] at h1 h2
      simp only [true_iff] at h2
      simp only at h1
      constructor
      · intro h
        exact Or.inr (by_contra fun hc => (h1.mp (h3.mpr hc)) h)
      · rintro (h | h)
        · exact absurd h h2
        · exact by_contra fun hc => (h3.mp (h1.mpr hc)) h
    | some v =>
      rw [hf] at h1 h2
      simp only [false_iff, not_not, reduceCtorEq] at h1 h2
      exact ⟨fun _ => Or.inl h2, fun _ => h1⟩

theorem windowTotal_cons (m : GoMap) (w : List GoMap) (key : String) :
    windowTotal (m :: w) key = (GoMap.index m key).Value + windowTotal w key := by
  simp [windowTotal]

/-- The map built by the outer loop of `SumPastN` over `k` slots whose maps are
well formed: it is well formed, the value of every key is the `int64` sum of
its values in the `k` slots plus its value in the initial `master`, and its keys
are those of the `k` slots and of `master`. -/
theorem TimeSeriesTopK.sumLoop_spec (ro : RangeOrder) (k i : Nat) (r : Ring GoMap)
    (master : GoMap) (hk : k ≤ r.view.length) (hr : ∀ m, some m ∈ r.view → GoMap.WF m)
    (hmaster : GoMap.WF master) (key : String) :
    GoMap.WF (TimeSeriesTopK.sumLoop ro i r k master) ∧
      (GoMap.index (TimeSeriesTopK.sumLoop ro i r k master) key).Value =
        windowTotal ((r.view.take k).map fun o => o.getD []) key +
          (GoMap.index master key).Value ∧
      (key ∈ (TimeSeriesTopK.sumLoop ro i r k master).map Prod.fst ↔
        (∃ m ∈ (r.view.take k).map (fun o => o.getD []), key ∈ m.map Prod.fst) ∨
          key ∈ master.map Prod.fst) := by
  induction k generalizing i r master with
  | zero => simp [TimeSeriesTopK.sumLoop, windowTotal, hmaster]
  | succ k ih =>
    rcases r with ⟨_ | ⟨v, rest⟩⟩
    · simp at hk
    · simp only [List.length_cons] at hk
      have hstep : ∃ M1, (match (Ring.Value ⟨v :: rest⟩ : Option GoMap) with
            | some rv => (ro.order i rv).foldl TimeSeriesTopK.mergeEntry master
            | none => master) = M1 ∧ GoMap.WF M1 ∧
          (GoMap.index M1 key).Value =
            (GoMap.index (v.getD []) key).Value + (GoMap.index master key).Value ∧
          (key ∈ M1.map Prod.fst ↔
            key ∈ (v.getD []).map Prod.fst ∨ key ∈ master.map Prod.fst) := by
        cases v with
        | none =>
          refine ⟨master, rfl, hmaster, ?_, by simp⟩
          exact (zero_add _).symm
        | some rv =>
          exact ⟨_, rfl, TimeSeriesTopK.merge_slot ro i rv master
            (hr rv (List.mem_cons_self _ _)) hmaster key⟩
      obtain ⟨M1, hM1, hwf1, hval1, hkeys1⟩ := hstep
      have hr' : ∀ m, some m ∈ (Ring.Prev ⟨v :: rest⟩).view → GoMap.WF m := by
        intro m hm
        rw [Ring.view_Prev_cons] at hm
        apply hr m
        rcases List.mem_append.mp hm with h | h
        · exact List.mem_cons_of_mem _ h
        · simp only [List.mem_singleton] at h
          rw [h]
          exact List.mem_cons_self _ _
      obtain ⟨hwf, hval, hkeys⟩ := ih (i + 1) (Ring.Prev ⟨v :: rest⟩) M1
        (by rw [Ring.length_Prev]; simpa using by omega) hr' hwf1
      rw [Ring.view_Prev_cons, List.take_append_of_le_length (by omega)] at hval hkeys
      rw [TimeSeriesTopK.sumLoop, hM1]
      refine ⟨hwf, ?_, ?_⟩
      · rw [hval, hval1, List.take_succ_cons, List.map_cons, windowTotal_cons]
        abel
      · have hex : (∃ m ∈ v.getD [] :: List.map (fun o => o.getD []) (List.take k rest),
            key ∈ List.map Prod.fst m) ↔ key ∈ List.map Prod.fst (v.getD []) ∨
              ∃ m ∈ List.map (fun o => o.getD []) (List.take k rest),
                key ∈ List.map Prod.fst m := by
          simp only [List.mem_cons, exists_eq_or_imp]
        rw [hkeys, hkeys1, List.take_succ_cons, List.map_cons, hex]
        generalize (∃ m ∈ List.map (fun o => o.getD []) (List.take k rest),
          key ∈ List.map Prod.fst m) = P
        tauto

theorem TimeSeriesTopK.window_eq (tsm : TimeSeriesTopK) (k : Nat)
    (hk : k ≤ tsm.values.view.length) :
    tsm.window k = (tsm.values.view.take k).map fun o => o.getD [] := by
  apply List.ext_getElem?
  intro i
  by_cases hi : i < k
  · have hil : i < tsm.values.view.length := by omega
    simp only [TimeSeriesTopK.window, List.getElem?_map, List.getElem?_take, hi, if_true]
    rw [List.getElem?_range hi, List.getElem?_eq_getElem hil]
    simp [Ring.slotAt_eq _ _ hil, List.getElem?_eq_getElem hil, Option.join]
  · rw [List.getElem?_eq_none (by simp [TimeSeriesTopK.window]; omega),
      List.getElem?_eq_none (by simp; omega)]

theorem TimeSeriesTopK.mem_window (tsm : TimeSeriesTopK) (k : Nat) (m : GoMap) :
    m ∈ tsm.window k ↔ ∃ i, i < k ∧ (tsm.values.slotAt i).getD [] = m := by
  simp [TimeSeriesTopK.window]

theorem GoMap.mem_snd_iff {m : GoMap} (h : GoMap.WF m) (t : Tuple) :
    t ∈ m.map Prod.snd ↔ GoMap.find m t.Key = some t := by
  constructor
  · intro ht
    obtain ⟨e, he, rfl⟩ := List.mem_map.mp ht
    apply GoMap.find_of_mem h.1
    rw [h.2 e he]
    exact he
  · intro ht
    exact List.mem_map.mpr ⟨_, GoMap.mem_of_find ht, rfl⟩

theorem GoMap.mem_keys_iff (m : GoMap) (key : String) :
    key ∈ m.map Prod.fst ↔ ∃ t, GoMap.find m key = some t := by
  have h := GoMap.find_eq_none_iff m key
  cases hf : GoMap.find m key with
  | none =>
    rw [hf] at h
    simp only [true_iff] at h
    simp [h]
  | some t =>
    rw [hf] at h
    simp only [false_iff, not_not, reduceCtorEq] at h
    simp [h]

theorem GoMap.map_Key_snd {m : GoMap} (h : GoMap.WF m) :
    (m.map Prod.snd).map Tuple.Key = m.map Prod.fst := by
  rw [List.map_map]
  apply List.map_congr_left
  intro e he
  exact h.2 e he

/-- What `SumPastN` returns in a state satisfying the invariant: a sorted
permutation of the values of a well-formed map `M` that holds, for every key of
the window, the `int64` sum of the key's values over the window. -/
theorem TimeSeriesTopK.SumPastN_spec (srt : Sorter) (ro : RangeOrder) (s : TimeSeriesTopK)
    (hinv : TopKInv s) (points : Int) (h1 : points ≤ s.values.Len - 1) :
    ∃ r M, s.SumPastN srt ro points = some r ∧ GoMap.WF M ∧ r.Perm (M.map Prod.snd) ∧
      r.Pairwise (fun a b => b.Value.val ≤ a.Value.val) ∧
      (∀ key, (GoMap.index M key).Value = windowTotal (s.window points.toNat) key) ∧
      ∀ key, key ∈ M.map Prod.fst ↔ ∃ m ∈ s.window points.toNat, key ∈ m.map Prod.fst := by
  have hk : points.toNat ≤ s.values.view.length := by
    unfold Ring.Len at h1
    omega
  have hspec := TimeSeriesTopK.sumLoop_spec ro points.toNat 0 s.values [] hk hinv.2 GoMap.WF_nil
  refine ⟨srt.sort ((ro.order points.toNat
      (TimeSeriesTopK.sumLoop ro 0 s.values points.toNat [])).map Prod.snd),
    TimeSeriesTopK.sumLoop ro 0 s.values points.toNat [], ?_, (hspec "").1, ?_, ?_, ?_, ?_⟩
  · unfold TimeSeriesTopK.SumPastN
    rw [if_neg (by omega)]
  · exact (srt.perm _).trans ((ro.perm _ _).map Prod.snd)
  · refine (srt.sorted _).imp ?_
    intro a b hab
    unfold Tuples.Less at hab
    omega
  · intro key
    rw [(hspec key).2.1, TimeSeriesTopK.window_eq _ _ hk]
    exact add_zero _
  · intro key
    rw [(hspec key).2.2, TimeSeriesTopK.window_eq _ _ hk]
    simp

/-- C4: in every state reached by a top-K series of capacity `points0`, for
every `points` with `0 <= points <= points0` and whatever the iteration order
of `range` and the tie-breaking of the sort, `SumPastN(points)` returns a full
outer join of the `points` most recent slots: a key occurs in the result if and
only if it is present in the map of at least one of those slots, no two tuples
of the result share a key, and the `Value` of each tuple is the `int64` sum
over those slots of the key's per-slot value (0 for a slot where it is absent). -/
theorem C4_SumPastN_full_outer_join (srt : Sorter) (ro : RangeOrder) (points0 : Int)
    (s0 s : TimeSeriesTopK) (ops : List TopKOp) (hnew : NewTimeSeriesTopK points0 = some s0)
    (hrun : s0.run ops = some s) (points : Int) (h0 : 0 ≤ points) (h1 : points ≤ points0) :
    ∃ r, s.SumPastN srt ro points = some r ∧
      (∀ k, (∃ t ∈ r, t.Key = k) ↔
        ∃ i : Nat, (i : Int) < points ∧ k ∈ ((s.values.slotAt i).getD []).map Prod.fst) ∧
      (r.map Tuple.Key).Nodup ∧
      ∀ t ∈ r, t.Value = windowTotal (s.window points.toNat) t.Key := by
  obtain ⟨s1, hrun', hinv, hlen⟩ := TimeSeriesTopK.topK_run_New hnew ops
  rw [hrun] at hrun'
  cases hrun'
  obtain ⟨r, M, hr, hwf, hperm, _, hval, hkeys⟩ :=
    TimeSeriesTopK.SumPastN_spec srt ro s hinv points (by omega)
  refine ⟨r, hr, ?_, ?_, ?_⟩
  · intro k
    have hmem : (∃ t ∈ r, t.Key = k) ↔ k ∈ M.map Prod.fst := by
      rw [← GoMap.map_Key_snd hwf, List.mem_map]
      constructor
      · rintro ⟨t, ht, hk⟩
        exact ⟨t, hperm.mem_iff.mp ht, hk⟩
      · rintro ⟨t, ht, hk⟩
        exact ⟨t, hperm.mem_iff.mpr ht, hk⟩
    rw [hmem, hkeys]
    constructor
    · rintro ⟨m, hm, hk⟩
      obtain ⟨i, hi, rfl⟩ := (TimeSeriesTopK.mem_window s _ m).mp hm
      exact ⟨i, by omega, hk⟩
    · rintro ⟨i, hi, hk⟩
      exact ⟨_, (TimeSeriesTopK.mem_window s _ _).mpr ⟨i, by omega, rfl⟩, hk⟩
  · rw [(hperm.map Tuple.Key).nodup_iff, GoMap.map_Key_snd hwf]
    exact hwf.1
  · intro t ht
    have hfind := (GoMap.mem_snd_iff hwf t).mp (hperm.mem_iff.mp ht)
    rw [← hval t.Key]
    simp [GoMap.index, hfind]

/-- C5: in every state reached by a top-K series of capacity `points0`, for
every `points <= points0` (in particular for `0 <= points <= points0`) and
whatever the iteration order of `range` and the tie-breaking of the sort,
`SumPastN(points)` returns a sequence sorted by `Value` in non-increasing
order; every tuple of it carries a key present in the window together with
that key's total over the window, and every key present in the window has a
tuple. So when the sequence is not empty its first tuple carries the largest
per-key total of the window: its key is present in the window, its value is
that key's total, and no tuple of the result and no key present in the window
has a larger total. -/
theorem C5_SumPastN_sorted_descending (srt : Sorter) (ro : RangeOrder) (points0 : Int)
    (s0 s : TimeSeriesTopK) (ops : List TopKOp) (hnew : NewTimeSeriesTopK points0 = some s0)
    (hrun : s0.run ops = some s) (points : Int) (h1 : points ≤ points0) :
    ∃ r, s.SumPastN srt ro points = some r ∧
      r.Pairwise (fun a b => b.Value.val ≤ a.Value.val) ∧
      (∀ t ∈ r, (∃ m ∈ s.window points.toNat, t.Key ∈ m.map Prod.fst) ∧
        t.Value = windowTotal (s.window points.toNat) t.Key) ∧
      (∀ k, (∃ m ∈ s.window points.toNat, k ∈ m.map Prod.fst) → ∃ t ∈ r, t.Key = k) ∧
      ∀ t0, r.head? = some t0 →
        (∃ m ∈ s.window points.toNat, t0.Key ∈ m.map Prod.fst) ∧
        t0.Value = windowTotal (s.window points.toNat) t0.Key ∧
        (∀ t ∈ r, t.Value.val ≤ t0.Value.val) ∧
        ∀ k, (∃ m ∈ s.window points.toNat, k ∈ m.map Prod.fst) →
          (windowTotal (s.window points.toNat) k).val ≤ t0.Value.val := by
  obtain ⟨s1, hrun', hinv, hlen⟩ := TimeSeriesTopK.topK_run_New hnew ops
  rw [hrun] at hrun'
  cases hrun'
  obtain ⟨r, M, hr, hwf, hperm, hsorted, hval, hkeys⟩ :=
    TimeSeriesTopK.SumPastN_spec srt ro s hinv points (by omega)
  have htuples : ∀ t ∈ r, (∃ m ∈ s.window points.toNat, t.Key ∈ m.map Prod.fst) ∧
      t.Value = windowTotal (s.window points.toNat) t.Key := by
    intro t ht
    have hfind := (GoMap.mem_snd_iff hwf t).mp (hperm.mem_iff.mp ht)
    refine ⟨(hkeys t.Key).mp ((GoMap.mem_keys_iff M t.Key).mpr ⟨t, hfind⟩), ?_⟩
    rw [← hval t.Key]
    simp [GoMap.index, hfind]
  have hpresent : ∀ k, (∃ m ∈ s.window points.toNat, k ∈ m.map Prod.fst) →
      ∃ t ∈ r, t.Key = k ∧ t.Value = windowTotal (s.window points.toNat) k := by
    intro k hk
    obtain ⟨t, hfind⟩ := (GoMap.mem_keys_iff M k).mp ((hkeys k).mpr hk)
    have hmem := GoMap.mem_of_find hfind
    have htM : t ∈ M.map Prod.snd := List.mem_map.mpr ⟨_, hmem, rfl⟩
    refine ⟨t, hperm.mem_iff.mpr htM, hwf.2 _ hmem, ?_⟩
    rw [← hval k]
    simp [GoMap.index, hfind]
  refine ⟨r, hr, hsorted, htuples, ?_, ?_⟩
  · intro k hk
    obtain ⟨t, ht, hkey, _⟩ := hpresent k hk
    exact ⟨t, ht, hkey⟩
  · intro t0 ht0
    have hmem0 : t0 ∈ r := List.mem_of_mem_head? ht0
    have hall : ∀ t ∈ r, t.Value.val ≤ t0.Value.val := by
      intro t ht
      cases r with
      | nil => simp at ht0
      | cons a r =>
        simp only [List.head?_cons, Option.some.injEq] at ht0
        subst ht0
        rcases List.mem_cons.mp ht with rfl | ht
        · exact le_refl _
        · exact (List.pairwise_cons.mp hsorted).1 t ht
    refine ⟨(htuples t0 hmem0).1, (htuples t0 hmem0).2, hall, ?_⟩
    intro k hk
    obtain ⟨t, ht, _, hv⟩ := hpresent k hk
    rw [← hv]
    exact hall t ht

set_option maxRecDepth 100000 in
theorem topKTest_run :
    NewTimeSeriesTopK 16 = some ⟨⟨some [] :: List.replicate 16 none⟩⟩ ∧
      TimeSeriesTopK.run ⟨⟨some [] :: List.replicate 16 none⟩⟩ (topKTestOps 16) =
        some topKTestState := by
  decide

set_option maxRecDepth 100000 in
theorem topKTest_window :
    (∃ m ∈ topKTestState.window 16, "Anderson" ∈ m.map Prod.fst) ∧
      (∀ m ∈ topKTestState.window 16, ∀ k ∈ m.map Prod.fst, k ∈ topKTestNames) ∧
      ∀ n ∈ topKTestNames,
        (windowTotal (topKTestState.window 16) "Anderson").val ≤
          (windowTotal (topKTestState.window 16) n).val → n = "Anderson" := by
  decide

set_option maxRecDepth 100000 in
theorem topKTest_total :
    windowTotal (topKTestState.window 16) "Anderson" = Int64.ofInt 120 := by
  decide

/-- C4 on a concrete run: capacity 2, `AddInt64("a", 5)`, `AddInt64("b", 9)`,
rotation, `AddInt64("a", 1)`, read with `points = 2`, insertion sort and maps
visited backwards. -/
theorem C4_SumPastN_full_outer_join_witness :
    ∃ r, TimeSeriesTopK.SumPastN insertionSorter RangeOrder.backwards
        ⟨⟨[some [("a", ⟨"a", Int64.ofInt 1⟩)],
          some [("a", ⟨"a", Int64.ofInt 5⟩), ("b", ⟨"b", Int64.ofInt 9⟩)], none]⟩⟩ 2 = some r ∧
      (∀ k, (∃ t ∈ r, t.Key = k) ↔
        ∃ i : Nat, (i : Int) < 2 ∧ k ∈ ((Ring.slotAt (⟨[some [("a", ⟨"a", Int64.ofInt 1⟩)],
          some [("a", ⟨"a", Int64.ofInt 5⟩), ("b", ⟨"b", Int64.ofInt 9⟩)], none]⟩ :
            Ring GoMap) i).getD []).map Prod.fst) ∧
      (r.map Tuple.Key).Nodup ∧
      ∀ t ∈ r, t.Value = windowTotal (TimeSeriesTopK.window
        ⟨⟨[some [("a", ⟨"a", Int64.ofInt 1⟩)],
          some [("a", ⟨"a", Int64.ofInt 5⟩), ("b", ⟨"b", Int64.ofInt 9⟩)], none]⟩⟩ 2) t.Key :=
  C4_SumPastN_full_outer_join insertionSorter RangeOrder.backwards 2 ⟨⟨[some [], none, none]⟩⟩ _
    [.AddInt64 "a" (Int64.ofInt 5), .AddInt64 "b" (Int64.ofInt 9), .tick,
      .AddInt64 "a" (Int64.ofInt 1)] (by decide) (by decide) 2 (by decide) (by decide)

/-- C5 on the run of `TestTimeSeriesTopK`: capacity 16, then 16 rounds of
adding `len(name)` to each of the 9 names followed by one rotation; whatever
the iteration order of `range` and the tie-breaking of the sort, `SumPastN(16)`
is sorted and its first tuple is "Anderson" with the total 15 * 8 = 120 (the
current slot has just been reset and the first round has left the window). -/
theorem C5_SumPastN_sorted_descending_witness :
    NewTimeSeriesTopK 16 = some ⟨⟨some [] :: List.replicate 16 none⟩⟩ ∧
      TimeSeriesTopK.run ⟨⟨some [] :: List.replicate 16 none⟩⟩ (topKTestOps 16) =
        some topKTestState ∧
      ∀ (srt : Sorter) (ro : RangeOrder),
        ∃ r, topKTestState.SumPastN srt ro 16 = some r ∧
          r.Pairwise (fun a b => b.Value.val ≤ a.Value.val) ∧
          r[0]? = some ⟨"Anderson", Int64.ofInt 120⟩ := by
  refine ⟨topKTest_run.1, topKTest_run.2, ?_⟩
  intro srt ro
  obtain ⟨r, hr, hsorted, _, hpresent, hhead⟩ := C5_SumPastN_sorted_descending srt ro 16
    ⟨⟨some [] :: List.replicate 16 none⟩⟩ topKTestState (topKTestOps 16)
    topKTest_run.1 topKTest_run.2 16 (by decide)
  obtain ⟨hA, hnames, hmax⟩ := topKTest_window
  have h16 : (16 : Int).toNat = 16 := rfl
  rw [h16] at hpresent hhead
  -- the result holds a tuple for "Anderson", so it is not empty
  obtain ⟨tA, htA, _⟩ := hpresent "Anderson" hA
  cases r with
  | nil => simp at htA
  | cons t0 r =>
    refine ⟨t0 :: r, hr, hsorted, ?_⟩
    obtain ⟨⟨m, hm, hkm⟩, hv0, _, htot⟩ := hhead t0 rfl
    have hkey : t0.Key = "Anderson" := by
      apply hmax t0.Key (hnames m hm _ hkm)
      rw [← hv0]
      exact htot "Anderson" hA
    have hval : t0.Value = Int64.ofInt 120 := by
      rw [hv0, hkey]
      exact topKTest_total
    rcases t0 with ⟨key, value⟩
    simp only at hkey hval
    subst hkey
    subst hval
    simp

/-! ## Rotations and history depth -/

theorem TimeSeriesTopK.run_append (ops1 ops2 : List TopKOp) (s : TimeSeriesTopK) :
    s.run (ops1 ++ ops2) = (s.run ops1).bind fun s1 => s1.run ops2 := by
  induction ops1 generalizing s with
  | nil => rfl
  | cons op ops1 ih =>
    simp only [List.cons_append, TimeSeriesTopK.run]
    cases op.apply s with
    | none => rfl
    | some s' => exact ih s'

/-- After a run with `j` rotations, the slot that was `i >= 1` rotations old is
`i + j` rotations old and holds the same value, as long as it is still in the
ring. -/
theorem TimeSeriesTopK.run_shift (ops : List TopKOp) (s s' : TimeSeriesTopK)
    (hrun : s.run ops = some s') (i : Nat) (hi : 1 ≤ i)
    (hlen : i + ops.count TopKOp.tick < s.values.view.length) :
    s'.values.view[i + ops.count TopKOp.tick]? = s.values.view[i]? := by
  induction ops generalizing s i with
  | nil =>
    simp only [TimeSeriesTopK.run, Option.some.injEq] at hrun
    subst hrun
    simp
  | cons op ops ih =>
    cases op with
    | AddInt64 key delta =>
      simp only [TimeSeriesTopK.run, TopKOp.apply] at hrun
      cases h1 : s.AddInt64 key delta with
      | none => simp [h1] at hrun
      | some s1 =>
        simp only [h1] at hrun
        obtain ⟨m, rest, hv, hv'⟩ := TimeSeriesTopK.topK_AddInt64_view h1
        have hc : (TopKOp.AddInt64 key delta :: ops).count TopKOp.tick =
            ops.count TopKOp.tick := by
          rw [List.count_cons_of_ne (by simp)]
        rw [hc] at hlen ⊢
        rw [ih s1 hrun i hi (by rw [hv']; rw [hv] at hlen; simpa using hlen), hv, hv']
        obtain ⟨i', rfl⟩ : ∃ i', i = i' + 1 := ⟨i - 1, by omega⟩
        simp
    | tick =>
      simp only [TimeSeriesTopK.run, TopKOp.apply] at hrun
      have hc : (TopKOp.tick :: ops).count TopKOp.tick = ops.count TopKOp.tick + 1 := by
        rw [List.count_cons_self]
      rw [hc] at hlen ⊢
      have hne : s.values.view ≠ [] := by
        intro h
        rw [h] at hlen
        simp at hlen
      have hv := TimeSeriesTopK.topK_view_tick s hne
      have hstep := ih s.tick hrun (i + 1) (by omega)
        (by rw [TimeSeriesTopK.topK_length_tick]; omega)
      have hidx : i + (ops.count TopKOp.tick + 1) = i + 1 + ops.count TopKOp.tick := by omega
      rw [hidx, hstep, hv, List.getElem?_cons_succ, List.getElem?_dropLast, if_pos (by omega)]

/-- A run without rotation leaves every slot but the current one as it is. -/
theorem TimeSeriesTopK.run_adds_tail (ops : List TopKOp) (s s' : TimeSeriesTopK)
    (hops : ∀ op ∈ ops, op ≠ TopKOp.tick) (hrun : s.run ops = some s') :
    s'.values.view.tail = s.values.view.tail := by
  induction ops generalizing s with
  | nil =>
    simp only [TimeSeriesTopK.run, Option.some.injEq] at hrun
    subst hrun
    rfl
  | cons op ops ih =>
    cases op with
    | AddInt64 key delta =>
      simp only [TimeSeriesTopK.run, TopKOp.apply] at hrun
      cases h1 : s.AddInt64 key delta with
      | none => simp [h1] at hrun
      | some s1 =>
        simp only [h1] at hrun
        obtain ⟨m, rest, hv, hv'⟩ := TimeSeriesTopK.topK_AddInt64_view h1
        rw [ih s1 (fun op hop => hops op (List.mem_cons_of_mem _ hop)) hrun, hv, hv']
        rfl
    | tick => exact absurd rfl (hops _ (List.mem_cons_self _ _))

theorem takeWhile_ne_tick (ops : List TopKOp) :
    (∀ op ∈ ops.takeWhile (fun op => decide (op ≠ TopKOp.tick)), op ≠ TopKOp.tick) ∧
      (ops.takeWhile (fun op => decide (op ≠ TopKOp.tick)) = ops ∨
        ∃ rest, ops = ops.takeWhile (fun op => decide (op ≠ TopKOp.tick)) ++
          TopKOp.tick :: rest) := by
  induction ops with
  | nil => simp
  | cons op ops ih =>
    by_cases h : op = TopKOp.tick
    · subst h
      simp
    · have hd : decide (op ≠ TopKOp.tick) = true := by simpa using h
      rw [List.takeWhile_cons, if_pos hd]
      refine ⟨?_, ?_⟩
      · intro op' hop'
        rcases List.mem_cons.mp hop' with rfl | hop'
        · exact h
        · exact ih.1 op' hop'
      · rcases ih.2 with h2 | ⟨rest, h2⟩
        · exact Or.inl (by rw [h2])
        · exact Or.inr ⟨rest, by rw [List.cons_append, ← h2]⟩

theorem count_tick_eq_zero (ops : List TopKOp) (h : ∀ op ∈ ops, op ≠ TopKOp.tick) :
    ops.count TopKOp.tick = 0 :=
  List.count_eq_zero.mpr fun hmem => h _ hmem rfl

theorem Ring.getElem?_zero_of_Value {α : Type} {r : Ring α} {m : α} (h : r.Value = some m) :
    r.view[0]? = some (some m) := by
  rcases r with ⟨_ | ⟨v, rest⟩⟩
  · simp [Ring.Value] at h
  · simp only [Ring.Value] at h
    simp [h]

/-- The state reached after a run with `k` rotations still holds, `k` slots
back, the map that was current just before the first of these rotations. -/
theorem TimeSeriesTopK.run_keeps_slot (s : TimeSeriesTopK) (hinv : TopKInv s)
    (ops : List TopKOp) (hlen : ops.count TopKOp.tick < s.values.view.length) :
    ∃ s1 m s', s.run (ops.takeWhile (fun op => decide (op ≠ TopKOp.tick))) = some s1 ∧
      s1.values.Value = some m ∧ s.run ops = some s' ∧ TopKInv s' ∧
      s'.values.view.length = s.values.view.length ∧
      s'.values.view[ops.count TopKOp.tick]? = some (some m) := by
  obtain ⟨hpre, hsplit⟩ := takeWhile_ne_tick ops
  obtain ⟨s1, hrun1, hinv1, hlen1⟩ := TimeSeriesTopK.topK_run_inv
    (ops.takeWhile (fun op => decide (op ≠ TopKOp.tick))) s hinv
  obtain ⟨m, hm⟩ := Option.isSome_iff_exists.mp hinv1.1
  have h0 := Ring.getElem?_zero_of_Value hm
  rcases hsplit with hall | ⟨rest, hrest⟩
  · refine ⟨s1, m, s1, hrun1, hm, ?_, hinv1, hlen1, ?_⟩
    · rw [← hall]
      exact hrun1
    · rw [← hall, count_tick_eq_zero _ hpre]
      exact h0
  · obtain ⟨s', hrun', hinv', hlen'⟩ := TimeSeriesTopK.topK_run_inv rest s1.tick (TopKInv_tick hinv1)
    have hcount : ops.count TopKOp.tick = 1 + rest.count TopKOp.tick := by
      rw [hrest, List.count_append, count_tick_eq_zero _ hpre, List.count_cons_self]
      omega
    have hrun : s.run ops = some s' := by
      rw [hrest, TimeSeriesTopK.run_append, hrun1]
      simpa [TimeSeriesTopK.run, TopKOp.apply] using hrun'
    refine ⟨s1, m, s', hrun1, hm, hrun, hinv', ?_, ?_⟩
    · rw [hlen', TimeSeriesTopK.topK_length_tick, hlen1]
    · rw [hcount, TimeSeriesTopK.run_shift rest s1.tick s' hrun' 1 (le_refl 1)
        (by rw [TimeSeriesTopK.topK_length_tick, hlen1]; omega),
        TimeSeriesTopK.topK_view_tick s1 (TopKInv_ne_nil hinv1), List.getElem?_cons_succ,
        List.getElem?_dropLast, if_pos (by omega)]
      exact h0

/-- C9 fails as stated for `k >= points0`: on a series of capacity 1, after
`k = 1` rotation the query `PastN(k + 1)` panics, so the slot that was current
before the rotation is not reachable through `PastN`. -/
theorem C9_depth_beyond_capacity_counterexample :
    NewTimeSeriesTopK 1 = some ⟨⟨[some [], none]⟩⟩ ∧
      TimeSeriesTopK.run ⟨⟨[some [], none]⟩⟩ [TopKOp.tick] = some ⟨⟨[some [], some []]⟩⟩ ∧
      TimeSeriesTopK.PastN insertionSorter RangeOrder.stored ⟨⟨[some [], some []]⟩⟩ (1 + 1) =
        none := by
  decide

/-- C9 (amended): for a top-K series of capacity `points0` in any reachable
state and any further run `ops1` with `k` rotations (and any `AddInt64` calls
interleaved), if `k + 1 <= points0` then the run returns, the slot that was
current before these rotations is `k` rotations old and still holds the map
`m` it held when it stopped being current (it has not been reset since), and
the snapshot `PastN(k+1)[k]` holds exactly the `(key, value)` entries of `m`. -/
theorem C9_slot_reachable_at_depth (srt : Sorter) (ro : RangeOrder) (points0 : Int)
    (s0 s : TimeSeriesTopK) (ops : List TopKOp) (hnew : NewTimeSeriesTopK points0 = some s0)
    (hrun : s0.run ops = some s) (ops1 : List TopKOp) (k : Nat)
    (hk : ops1.count TopKOp.tick = k) (hcap : (k : Int) + 1 ≤ points0) :
    ∃ s1 m s' r snap,
      s.run (ops1.takeWhile (fun op => decide (op ≠ TopKOp.tick))) = some s1 ∧
      s1.values.Value = some m ∧
      s.run ops1 = some s' ∧
      s'.values.slotAt k = some m ∧
      s'.PastN srt ro ((k : Int) + 1) = some r ∧ r[k]? = some snap ∧
      snap.Perm (GoMap.entries m) := by
  obtain ⟨s2, hrun2, hinv, hlen⟩ := TimeSeriesTopK.topK_run_New hnew ops
  rw [hrun] at hrun2
  cases hrun2
  have hL : (s.values.view.length : Int) = points0 + 1 := hlen
  subst hk
  obtain ⟨s1, m, s', hrun1, hm, hrun', hinv', hlen', hslot⟩ :=
    TimeSeriesTopK.run_keeps_slot s hinv ops1 (by omega)
  have hkl : ops1.count TopKOp.tick < s'.values.view.length := by omega
  have hmem : some m ∈ s'.values.view := by
    rw [List.getElem?_eq_getElem hkl, Option.some.injEq] at hslot
    rw [← hslot]
    exact List.getElem_mem _
  have htoNat : ((ops1.count TopKOp.tick : Int) + 1).toNat = ops1.count TopKOp.tick + 1 := by
    omega
  have hsnap := TimeSeriesTopK.getElem?_pastLoop srt ro (ops1.count TopKOp.tick + 1) 0
    s'.values (ops1.count TopKOp.tick) (by omega) (by omega)
  rw [hslot] at hsnap
  simp only [Option.join, Option.bind_eq_bind, Option.some_bind, id_eq] at hsnap
  refine ⟨s1, m, s', TimeSeriesTopK.pastLoop srt ro 0 s'.values (ops1.count TopKOp.tick + 1),
    _, hrun1, hm, hrun', ?_, ?_, hsnap, ?_⟩
  · rw [Ring.slotAt_eq _ _ hkl, hslot]
    rfl
  · unfold TimeSeriesTopK.PastN
    rw [if_neg (by unfold Ring.Len; omega), if_neg (by omega), htoNat]
  · rw [GoMap.entries_eq_of_WF (hinv'.2 m hmem)]
    exact (srt.perm _).trans ((ro.perm _ m).map Prod.snd)

/-- C9 (amended) on a concrete run: capacity 3, state reached by
`AddInt64("a", 5)`, then `AddInt64("b", 2)`, rotation, `AddInt64("c", 1)`,
rotation: `k = 2`. -/
theorem C9_slot_reachable_at_depth_witness :
    ∃ s1 m s' r snap,
      TimeSeriesTopK.run ⟨⟨[some [("a", ⟨"a", Int64.ofInt 5⟩)], none, none, none]⟩⟩
        (List.takeWhile (fun op => decide (op ≠ TopKOp.tick))
          [.AddInt64 "b" (Int64.ofInt 2), .tick, .AddInt64 "c" (Int64.ofInt 1), .tick]) =
        some s1 ∧
      s1.values.Value = some m ∧
      TimeSeriesTopK.run ⟨⟨[some [("a", ⟨"a", Int64.ofInt 5⟩)], none, none, none]⟩⟩
        [.AddInt64 "b" (Int64.ofInt 2), .tick, .AddInt64 "c" (Int64.ofInt 1), .tick] = some s' ∧
      s'.values.slotAt 2 = some m ∧
      s'.PastN insertionSorter RangeOrder.stored (((2 : Nat) : Int) + 1) = some r ∧
      r[2]? = some snap ∧ snap.Perm (GoMap.entries m) :=
  C9_slot_reachable_at_depth insertionSorter RangeOrder.stored 3
    ⟨⟨[some [], none, none, none]⟩⟩ _ [.AddInt64 "a" (Int64.ofInt 5)] (by decide) (by decide)
    [.AddInt64 "b" (Int64.ofInt 2), .tick, .AddInt64 "c" (Int64.ofInt 1), .tick] 2
    (by decide) (by decide)

/-! ## Repeated reads -/

/-- Two sorted permutations of the same tuples carry the same sequence of
values. -/
theorem values_eq_of_sorted_perm {a b : List Tuple} (hp : a.Perm b)
    (ha : a.Pairwise (fun x y => y.Value.val ≤ x.Value.val))
    (hb : b.Pairwise (fun x y => y.Value.val ≤ x.Value.val)) :
    a.map Tuple.Value = b.map Tuple.Value := by
  have hval : (a.map Tuple.Value).map Int64.val = (b.map Tuple.Value).map Int64.val := by
    rw [List.map_map, List.map_map]
    apply List.eq_of_perm_of_sorted (r := fun x y : Int => y ≤ x) (hp.map _)
    · exact List.pairwise_map.mpr ha
    · exact List.pairwise_map.mpr hb
  have hinj : Function.Injective Int64.val := fun x y h => Int64.ext_val h
  exact List.map_injective_iff.mpr hinj hval

theorem sorter_values (srt : Sorter) (l : List Tuple) :
    (srt.sort l).Pairwise (fun x y => y.Value.val ≤ x.Value.val) := by
  refine (srt.sorted l).imp ?_
  intro a b hab
  unfold Tuples.Less at hab
  omega

theorem GoMap.find_eq_of_WF {m : GoMap} (h : GoMap.WF m) (key : String) :
    GoMap.find m key =
      if key ∈ m.map Prod.fst then some ⟨key, (GoMap.index m key).Value⟩ else none := by
  split
  · rename_i hk
    obtain ⟨t, ht⟩ := (GoMap.mem_keys_iff m key).mp hk
    have hkey := h.2 _ (GoMap.mem_of_find ht)
    simp only at hkey
    subst hkey
    rw [ht]
    simp [GoMap.index, ht]
  · rename_i hk
    exact (GoMap.find_eq_none_iff m key).mpr hk

/-- Two well-formed maps with the same keys and the same value for every key
hold the same tuples. -/
theorem GoMap.perm_snd_of_same {m1 m2 : GoMap} (h1 : GoMap.WF m1) (h2 : GoMap.WF m2)
    (hkeys : ∀ key, key ∈ m1.map Prod.fst ↔ key ∈ m2.map Prod.fst)
    (hval : ∀ key, (GoMap.index m1 key).Value = (GoMap.index m2 key).Value) :
    (m1.map Prod.snd).Perm (m2.map Prod.snd) := by
  have hnd : ∀ {m : GoMap}, GoMap.WF m → (m.map Prod.snd).Nodup := by
    intro m hm
    apply List.Nodup.of_map Tuple.Key
    rw [GoMap.map_Key_snd hm]
    exact hm.1
  rw [List.perm_ext_iff_of_nodup (hnd h1) (hnd h2)]
  intro t
  rw [GoMap.mem_snd_iff h1, GoMap.mem_snd_iff h2, GoMap.find_eq_of_WF h1, GoMap.find_eq_of_WF h2,
    hval t.Key]
  by_cases hk : t.Key ∈ m1.map Prod.fst
  · rw [if_pos hk, if_pos ((hkeys _).mp hk)]
  · rw [if_neg hk, if_neg (fun hc => hk ((hkeys _).mpr hc))]

theorem eq_of_values_eq {a b : List Tuple} (hp : a.Perm b)
    (hnd : (a.map Tuple.Value).Nodup) (hmap : a.map Tuple.Value = b.map Tuple.Value) :
    a = b := by
  apply List.ext_getElem?
  intro i
  have hi := congrArg (fun l => l[i]?) hmap
  simp only [List.getElem?_map] at hi
  cases ha : a[i]? with
  | none =>
    cases hb : b[i]? with
    | none => rfl
    | some y => simp [ha, hb] at hi
  | some x =>
    cases hb : b[i]? with
    | none => simp [ha, hb] at hi
    | some y =>
      simp only [ha, hb, Option.map_some', Option.some.injEq] at hi
      have hx : x ∈ a := List.getElem?_mem ha
      have hy : y ∈ a := hp.mem_iff.mpr (List.getElem?_mem hb)
      rw [List.inj_on_of_nodup_map hnd hx hy hi]

/-- C10 fails as stated for the top-K queries: in the state reached on a series
of capacity 1 by `AddInt64("a", 1)` and `AddInt64("b", 1)`, the current map
holds two entries of equal value; a call of `PastN(1)` whose `range` visits "a"
first and a second call whose `range` visits "b" first (Go does not fix the
order, and the insertion sort that `sort.Sort` runs on two elements keeps the
order of equal values) return different results, with no write and no rotation
in between. -/
theorem C10_tie_order_counterexample :
    NewTimeSeriesTopK 1 = some ⟨⟨[some [], none]⟩⟩ ∧
      TimeSeriesTopK.run ⟨⟨[some [], none]⟩⟩
          [.AddInt64 "a" (Int64.ofInt 1), .AddInt64 "b" (Int64.ofInt 1)] =
        some ⟨⟨[some [("a", ⟨"a", Int64.ofInt 1⟩), ("b", ⟨"b", Int64.ofInt 1⟩)], none]⟩⟩ ∧
      TimeSeriesTopK.PastN insertionSorter RangeOrder.stored
          ⟨⟨[some [("a", ⟨"a", Int64.ofInt 1⟩), ("b", ⟨"b", Int64.ofInt 1⟩)], none]⟩⟩ 1 =
        some [[⟨"a", Int64.ofInt 1⟩, ⟨"b", Int64.ofInt 1⟩]] ∧
      TimeSeriesTopK.PastN insertionSorter RangeOrder.backwards
          ⟨⟨[some [("a", ⟨"a", Int64.ofInt 1⟩), ("b", ⟨"b", Int64.ofInt 1⟩)], none]⟩⟩ 1 =
        some [[⟨"b", Int64.ofInt 1⟩, ⟨"a", Int64.ofInt 1⟩]] ∧
      TimeSeriesTopK.PastN insertionSorter RangeOrder.stored
          ⟨⟨[some [("a", ⟨"a", Int64.ofInt 1⟩), ("b", ⟨"b", Int64.ofInt 1⟩)], none]⟩⟩ 1 ≠
        TimeSeriesTopK.PastN insertionSorter RangeOrder.backwards
          ⟨⟨[some [("a", ⟨"a", Int64.ofInt 1⟩), ("b", ⟨"b", Int64.ofInt 1⟩)], none]⟩⟩ 1 := by
  decide

theorem Ring.map_slotAt_range {α : Type} (r : Ring α) (d : α) (k : Nat)
    (hk : k ≤ r.view.length) :
    (List.range k).map (fun i => (r.slotAt i).getD d) = (r.view.take k).map fun o => o.getD d := by
  apply List.ext_getElem?
  intro i
  by_cases hi : i < k
  · have hil : i < r.view.length := by omega
    simp only [List.getElem?_map, List.getElem?_take, hi, if_true]
    rw [List.getElem?_range hi, List.getElem?_eq_getElem hil]
    simp [Ring.slotAt_eq _ _ hil, List.getElem?_eq_getElem hil, Option.join]
  · rw [List.getElem?_eq_none (by simp; omega), List.getElem?_eq_none (by simp; omega)]

/-- A sequence of reads on a scalar series ends in the state it started from. -/
theorem TimeSeriesMetric.runCalls_reads (reads : List MetricCall) (m : TimeSeriesMetric)
    (h : ∀ c ∈ reads, c.isRead = true) : m.runCalls reads = some m := by
  induction reads with
  | nil => rfl
  | cons c cs ih =>
    have hc := h c (List.mem_cons_self _ _)
    have hcs := ih fun c' hc' => h c' (List.mem_cons_of_mem _ hc')
    cases c with
    | AddInt64 delta => simp [MetricCall.isRead] at hc
    | tick => simp [MetricCall.isRead] at hc
    | PastN points => simpa [TimeSeriesMetric.runCalls, MetricCall.apply] using hcs
    | SumPastN points => simpa [TimeSeriesMetric.runCalls, MetricCall.apply] using hcs

/-- A sequence of reads on a top-K series ends in the state it started from. -/
theorem TimeSeriesTopK.topK_runCalls_reads (reads : List TopKCall) (s : TimeSeriesTopK)
    (h : ∀ c ∈ reads, c.isRead = true) : s.runCalls reads = some s := by
  induction reads with
  | nil => rfl
  | cons c cs ih =>
    have hc := h c (List.mem_cons_self _ _)
    have hcs := ih fun c' hc' => h c' (List.mem_cons_of_mem _ hc')
    cases c with
    | AddInt64 key delta => simp [TopKCall.isRead] at hc
    | tick => simp [TopKCall.isRead] at hc
    | GetCurr key => simpa [TimeSeriesTopK.runCalls, TopKCall.apply] using hcs
    | PastN points => simpa [TimeSeriesTopK.runCalls, TopKCall.apply] using hcs
    | SumPastN points => simpa [TimeSeriesTopK.runCalls, TopKCall.apply] using hcs

/-- C10 (amended): in every state `m` reached by a scalar series and `s`
reached by a top-K series of capacity `points0`:
* any sequence of reads (no `AddInt64`, no rotation) ends in the state it
  started from: every slot and the position of the current slot are as before;
* scalar `PastN(points)` and `SumPastN(points)` panic or return according to
  `points` alone, and return the values (the `int64` sum of the values) of the
  `points` most recent slots; `GetCurr(key)` returns the value stored for `key`
  in the current slot; these results depend on nothing but the slots, which the
  reads leave unchanged, so repeated calls return identical results;
* two calls of top-K `PastN`, or of top-K `SumPastN`, with the same argument,
  whatever order the `range` statements of each call visit the maps in, either
  both panic or both return; the two results have the same length,
  corresponding snapshots (for `SumPastN`: the two results) hold the same
  tuples and the same sequence of values, and they are identical when no two
  of their tuples have the same value. -/
theorem C10_repeated_reads_agree (srt : Sorter) (ro1 ro2 : RangeOrder) (points0 : Int)
    (m0 m : TimeSeriesMetric) (mops : List MetricOp)
    (s0 s : TimeSeriesTopK) (ops : List TopKOp)
    (hm0 : NewTimeSeriesMetric points0 = some m0) (hm : m0.run mops = some m)
    (hnew : NewTimeSeriesTopK points0 = some s0) (hrun : s0.run ops = some s)
    (mreads : List MetricCall) (treads : List TopKCall)
    (hmreads : ∀ c ∈ mreads, c.isRead = true) (htreads : ∀ c ∈ treads, c.isRead = true)
    (points : Int) :
    m.runCalls mreads = some m ∧ s.runCalls treads = some s ∧
    m.PastN points =
      (if points0 < points ∨ points < 0 then none
        else some ((List.range points.toNat).map fun i => (m.values.slotAt i).getD 0)) ∧
    m.SumPastN points =
      (if points0 < points then none
        else some ((List.range points.toNat).map fun i => (m.values.slotAt i).getD 0).sum) ∧
    (∃ cur, s.values.slotAt 0 = some cur ∧
      ∀ key, s.GetCurr key = some (GoMap.index cur key).Value) ∧
    ((s.PastN srt ro1 points = none ∧ s.PastN srt ro2 points = none) ∨
      ∃ r1 r2, s.PastN srt ro1 points = some r1 ∧ s.PastN srt ro2 points = some r2 ∧
        r1.length = r2.length ∧
        ∀ (i : Nat) (a b : List Tuple), r1[i]? = some a → r2[i]? = some b →
          a.Perm b ∧ a.map Tuple.Value = b.map Tuple.Value ∧
            ((a.map Tuple.Value).Nodup → a = b)) ∧
    ((s.SumPastN srt ro1 points = none ∧ s.SumPastN srt ro2 points = none) ∨
      ∃ r1 r2, s.SumPastN srt ro1 points = some r1 ∧ s.SumPastN srt ro2 points = some r2 ∧
        r1.Perm r2 ∧ r1.map Tuple.Value = r2.map Tuple.Value ∧
          ((r1.map Tuple.Value).Nodup → r1 = r2)) := by
  obtain ⟨m1, hm1, _, hmlen⟩ := TimeSeriesMetric.run_New hm0 mops
  rw [hm] at hm1
  cases hm1
  obtain ⟨s2, hrun2, hinv, hlen⟩ := TimeSeriesTopK.topK_run_New hnew ops
  rw [hrun] at hrun2
  cases hrun2
  have hmL : (m.values.view.length : Int) = points0 + 1 := hmlen
  have hL : (s.values.view.length : Int) = points0 + 1 := hlen
  refine ⟨TimeSeriesMetric.runCalls_reads mreads m hmreads,
    TimeSeriesTopK.topK_runCalls_reads treads s htreads, ?_, ?_, ?_, ?_⟩
  · unfold TimeSeriesMetric.PastN
    by_cases h1 : points0 < points
    · rw [if_pos (by unfold Ring.Len; omega), if_pos (Or.inl h1)]
    · by_cases h2 : points < 0
      · rw [if_neg (by unfold Ring.Len; omega), if_pos h2, if_pos (Or.inr h2)]
      · rw [if_neg (by unfold Ring.Len; omega), if_neg h2, if_neg (by omega),
          TimeSeriesMetric.pastLoop_eq _ _ (by omega), Ring.map_slotAt_range _ _ _ (by omega)]
  · unfold TimeSeriesMetric.SumPastN
    by_cases h1 : points0 < points
    · rw [if_pos (by unfold Ring.Len; omega), if_pos h1]
    · rw [if_neg (by unfold Ring.Len; omega), if_neg h1,
        TimeSeriesMetric.sumLoop_eq _ _ _ (by omega), Ring.map_slotAt_range _ _ _ (by omega),
        zero_add]
  · obtain ⟨cur, hcur⟩ := Option.isSome_iff_exists.mp hinv.1
    refine ⟨cur, hcur, ?_⟩
    intro key
    simp [TimeSeriesTopK.GetCurr, hcur]
  by_cases hbig : points > s.values.Len - 1
  · refine ⟨Or.inl ⟨?_, ?_⟩, Or.inl ⟨?_, ?_⟩⟩
    · unfold TimeSeriesTopK.PastN
      rw [if_pos hbig]
    · unfold TimeSeriesTopK.PastN
      rw [if_pos hbig]
    · unfold TimeSeriesTopK.SumPastN
      rw [if_pos hbig]
    · unfold TimeSeriesTopK.SumPastN
      rw [if_pos hbig]
  · have hle : points ≤ s.values.Len - 1 := by omega
    have hk : points.toNat ≤ s.values.view.length := by
      unfold Ring.Len at hle
      omega
    refine ⟨?_, ?_⟩
    · by_cases hneg : points < 0
      · left
        unfold TimeSeriesTopK.PastN
        rw [if_neg hbig, if_pos hneg]
        exact ⟨rfl, by rw [if_neg hbig, if_pos hneg]⟩
      · right
        refine ⟨TimeSeriesTopK.pastLoop srt ro1 0 s.values points.toNat,
          TimeSeriesTopK.pastLoop srt ro2 0 s.values points.toNat, ?_, ?_, ?_, ?_⟩
        · unfold TimeSeriesTopK.PastN
          rw [if_neg hbig, if_neg hneg]
        · unfold TimeSeriesTopK.PastN
          rw [if_neg hbig, if_neg hneg]
        · rw [TimeSeriesTopK.length_pastLoop, TimeSeriesTopK.length_pastLoop]
        · intro i a b ha hb
          have hi : i < points.toNat := by
            by_contra hc
            rw [List.getElem?_eq_none (by rw [TimeSeriesTopK.length_pastLoop]; omega)] at ha
            cases ha
          rw [TimeSeriesTopK.getElem?_pastLoop srt ro1 _ 0 _ i hi hk, Option.some.injEq] at ha
          rw [TimeSeriesTopK.getElem?_pastLoop srt ro2 _ 0 _ i hi hk, Option.some.injEq] at hb
          subst ha
          subst hb
          cases (s.values.view[i]?).join with
          | none => simp
          | some v =>
            have hp : (srt.sort ((ro1.order (0 + i) v).map Prod.snd)).Perm
                (srt.sort ((ro2.order (0 + i) v).map Prod.snd)) :=
              ((srt.perm _).trans ((ro1.perm _ v).map Prod.snd)).trans
                (((srt.perm _).trans ((ro2.perm _ v).map Prod.snd)).symm)
            have hv := values_eq_of_sorted_perm hp (sorter_values srt _) (sorter_values srt _)
            exact ⟨hp, hv, fun hnd => eq_of_values_eq hp hnd hv⟩
    · right
      obtain ⟨r1, M1, hr1, hwf1, hperm1, hs1, hval1, hkeys1⟩ :=
        TimeSeriesTopK.SumPastN_spec srt ro1 s hinv points hle
      obtain ⟨r2, M2, hr2, hwf2, hperm2, hs2, hval2, hkeys2⟩ :=
        TimeSeriesTopK.SumPastN_spec srt ro2 s hinv points hle
      have hM : (M1.map Prod.snd).Perm (M2.map Prod.snd) :=
        GoMap.perm_snd_of_same hwf1 hwf2 (fun key => by rw [hkeys1, hkeys2])
          (fun key => by rw [hval1, hval2])
      have hp : r1.Perm r2 := (hperm1.trans hM).trans hperm2.symm
      have hv := values_eq_of_sorted_perm hp hs1 hs2
      exact ⟨r1, r2, hr1, hr2, hp, hv, fun hnd => eq_of_values_eq hp hnd hv⟩

/-- C10 (amended) on the state of the counterexample, with a scalar series of
the same capacity reached by `AddInt64(5)`: three reads in a row on each
series, and two top-K calls whose `range` statements visit the maps in
opposite orders. -/
theorem C10_repeated_reads_agree_witness :
    TimeSeriesMetric.runCalls ⟨⟨[some (Int64.ofInt 5), none]⟩⟩
        [.PastN 1, .SumPastN 1, .PastN 7] = some ⟨⟨[some (Int64.ofInt 5), none]⟩⟩ ∧
    TimeSeriesTopK.runCalls
        ⟨⟨[some [("a", ⟨"a", Int64.ofInt 1⟩), ("b", ⟨"b", Int64.ofInt 1⟩)], none]⟩⟩
        [.GetCurr "a", .PastN 1, .SumPastN 1] =
      some ⟨⟨[some [("a", ⟨"a", Int64.ofInt 1⟩), ("b", ⟨"b", Int64.ofInt 1⟩)], none]⟩⟩ ∧
    TimeSeriesMetric.PastN ⟨⟨[some (Int64.ofInt 5), none]⟩⟩ 1 =
      (if (1 : Int) < 1 ∨ (1 : Int) < 0 then none
        else some ((List.range (1 : Int).toNat).map fun i =>
          (Ring.slotAt (⟨[some (Int64.ofInt 5), none]⟩ : Ring Int64) i).getD 0)) ∧
    TimeSeriesMetric.SumPastN ⟨⟨[some (Int64.ofInt 5), none]⟩⟩ 1 =
      (if (1 : Int) < 1 then none
        else some ((List.range (1 : Int).toNat).map fun i =>
          (Ring.slotAt (⟨[some (Int64.ofInt 5), none]⟩ : Ring Int64) i).getD 0).sum) ∧
    (∃ cur, Ring.slotAt (⟨[some [("a", ⟨"a", Int64.ofInt 1⟩), ("b", ⟨"b", Int64.ofInt 1⟩)],
          none]⟩ : Ring GoMap) 0 = some cur ∧
      ∀ key, TimeSeriesTopK.GetCurr
          ⟨⟨[some [("a", ⟨"a", Int64.ofInt 1⟩), ("b", ⟨"b", Int64.ofInt 1⟩)], none]⟩⟩ key =
        some (GoMap.index cur key).Value) ∧
    ((TimeSeriesTopK.PastN insertionSorter RangeOrder.stored
          ⟨⟨[some [("a", ⟨"a", Int64.ofInt 1⟩), ("b", ⟨"b", Int64.ofInt 1⟩)], none]⟩⟩ 1 = none ∧
        TimeSeriesTopK.PastN insertionSorter RangeOrder.backwards
          ⟨⟨[some [("a", ⟨"a", Int64.ofInt 1⟩), ("b", ⟨"b", Int64.ofInt 1⟩)], none]⟩⟩ 1 = none) ∨
      ∃ r1 r2, TimeSeriesTopK.PastN insertionSorter RangeOrder.stored
          ⟨⟨[some [("a", ⟨"a", Int64.ofInt 1⟩), ("b", ⟨"b", Int64.ofInt 1⟩)], none]⟩⟩ 1 =
            some r1 ∧
        TimeSeriesTopK.PastN insertionSorter RangeOrder.backwards
          ⟨⟨[some [("a", ⟨"a", Int64.ofInt 1⟩), ("b", ⟨"b", Int64.ofInt 1⟩)], none]⟩⟩ 1 =
            some r2 ∧
        r1.length = r2.length ∧
        ∀ (i : Nat) (a b : List Tuple), r1[i]? = some a → r2[i]? = some b →
          a.Perm b ∧ a.map Tuple.Value = b.map Tuple.Value ∧
            ((a.map Tuple.Value).Nodup → a = b)) ∧
    ((TimeSeriesTopK.SumPastN insertionSorter RangeOrder.stored
          ⟨⟨[some [("a", ⟨"a", Int64.ofInt 1⟩), ("b", ⟨"b", Int64.ofInt 1⟩)], none]⟩⟩ 1 = none ∧
        TimeSeriesTopK.SumPastN insertionSorter RangeOrder.backwards
          ⟨⟨[some [("a", ⟨"a", Int64.ofInt 1⟩), ("b", ⟨"b", Int64.ofInt 1⟩)], none]⟩⟩ 1 = none) ∨
      ∃ r1 r2, TimeSeriesTopK.SumPastN insertionSorter RangeOrder.stored
          ⟨⟨[some [("a", ⟨"a", Int64.ofInt 1⟩), ("b", ⟨"b", Int64.ofInt 1⟩)], none]⟩⟩ 1 =
            some r1 ∧
        TimeSeriesTopK.SumPastN insertionSorter RangeOrder.backwards
          ⟨⟨[some [("a", ⟨"a", Int64.ofInt 1⟩), ("b", ⟨"b", Int64.ofInt 1⟩)], none]⟩⟩ 1 =
            some r2 ∧
        r1.Perm r2 ∧ r1.map Tuple.Value = r2.map Tuple.Value ∧
          ((r1.map Tuple.Value).Nodup → r1 = r2)) :=
  C10_repeated_reads_agree insertionSorter RangeOrder.stored RangeOrder.backwards 1
    ⟨⟨[some 0, none]⟩⟩ _ [.AddInt64 (Int64.ofInt 5)]
    ⟨⟨[some [], none]⟩⟩ _ [.AddInt64 "a" (Int64.ofInt 1), .AddInt64 "b" (Int64.ofInt 1)]
    (by decide) (by decide) (by decide) (by decide)
    [.PastN 1, .SumPastN 1, .PastN 7] [.GetCurr "a", .PastN 1, .SumPastN 1]
    (by decide) (by decide) 1

/-! ## Failure conditions and the size of the ring -/

/-- C16: in every state reached by a scalar series of capacity `points0`
(which is `>= 0` for the series to exist), `PastN(points)` panics if and only if
`points > points0` or `points < 0`, whereas `SumPastN(points)` panics if and
only if `points > points0`, and returns 0 for every `points <= 0`. -/
theorem C16_scalar_failure_conditions (points0 : Int) (s0 s : TimeSeriesMetric)
    (ops : List MetricOp) (hnew : NewTimeSeriesMetric points0 = some s0)
    (hrun : s0.run ops = some s) (points : Int) :
    0 ≤ points0 ∧
      (s.PastN points = none ↔ points0 < points ∨ points < 0) ∧
      (s.SumPastN points = none ↔ points0 < points) ∧
      (points ≤ 0 → s.SumPastN points = some 0) := by
  obtain ⟨s1, hrun1, _, hlen⟩ := TimeSeriesMetric.run_New hnew ops
  rw [hrun] at hrun1
  cases hrun1
  obtain ⟨hp0, _⟩ := view_NewTimeSeriesMetric hnew
  refine ⟨hp0, ?_, ?_, ?_⟩
  · unfold TimeSeriesMetric.PastN
    by_cases h1 : points > s.values.Len - 1
    · rw [if_pos h1]
      exact ⟨fun _ => Or.inl (by omega), fun _ => rfl⟩
    · rw [if_neg h1]
      by_cases h2 : points < 0
      · rw [if_pos h2]
        exact ⟨fun _ => Or.inr h2, fun _ => rfl⟩
      · rw [if_neg h2]
        constructor
        · intro h
          cases h
        · intro h
          omega
  · unfold TimeSeriesMetric.SumPastN
    by_cases h1 : points > s.values.Len - 1
    · rw [if_pos h1]
      exact ⟨fun _ => by omega, fun _ => rfl⟩
    · rw [if_neg h1]
      constructor
      · intro h
        cases h
      · intro h
        omega
  · intro hle
    unfold TimeSeriesMetric.SumPastN
    rw [if_neg (by omega)]
    have h0 : points.toNat = 0 := by omega
    rw [h0]
    rfl

/-- C16 on a concrete run: capacity 2, `AddInt64(5)`, rotation, `AddInt64(7)`,
and `points = -1`. -/
theorem C16_scalar_failure_conditions_witness :
    (0 : Int) ≤ 2 ∧
      (TimeSeriesMetric.PastN ⟨⟨[some (Int64.ofInt 7), some (Int64.ofInt 5), none]⟩⟩ (-1) = none ↔
        (2 : Int) < -1 ∨ (-1 : Int) < 0) ∧
      (TimeSeriesMetric.SumPastN ⟨⟨[some (Int64.ofInt 7), some (Int64.ofInt 5), none]⟩⟩ (-1) =
        none ↔ (2 : Int) < -1) ∧
      ((-1 : Int) ≤ 0 →
        TimeSeriesMetric.SumPastN ⟨⟨[some (Int64.ofInt 7), some (Int64.ofInt 5), none]⟩⟩ (-1) =
          some 0) :=
  C16_scalar_failure_conditions 2 ⟨⟨[some 0, none, none]⟩⟩ _
    [.AddInt64 (Int64.ofInt 5), .tick, .AddInt64 (Int64.ofInt 7)] (by decide) (by decide) (-1)

theorem TimeSeriesMetric.runCalls_eq_run (calls : List MetricCall) (s : TimeSeriesMetric) :
    ∃ ops, s.runCalls calls = s.run ops := by
  induction calls generalizing s with
  | nil => exact ⟨[], rfl⟩
  | cons c cs ih =>
    cases c with
    | AddInt64 delta =>
      cases h : s.AddInt64 delta with
      | none =>
        refine ⟨[MetricOp.AddInt64 delta], ?_⟩
        simp [TimeSeriesMetric.runCalls, MetricCall.apply, TimeSeriesMetric.run, MetricOp.apply, h]
      | some s' =>
        obtain ⟨ops, hops⟩ := ih s'
        refine ⟨MetricOp.AddInt64 delta :: ops, ?_⟩
        simp [TimeSeriesMetric.runCalls, MetricCall.apply, TimeSeriesMetric.run, MetricOp.apply, h,
          hops]
    | tick =>
      obtain ⟨ops, hops⟩ := ih s.tick
      refine ⟨MetricOp.tick :: ops, ?_⟩
      simp [TimeSeriesMetric.runCalls, MetricCall.apply, TimeSeriesMetric.run, MetricOp.apply, hops]
    | PastN points =>
      obtain ⟨ops, hops⟩ := ih s
      exact ⟨ops, by simp [TimeSeriesMetric.runCalls, MetricCall.apply, hops]⟩
    | SumPastN points =>
      obtain ⟨ops, hops⟩ := ih s
      exact ⟨ops, by simp [TimeSeriesMetric.runCalls, MetricCall.apply, hops]⟩

theorem TimeSeriesTopK.topK_runCalls_eq_run (calls : List TopKCall) (s : TimeSeriesTopK) :
    ∃ ops, s.runCalls calls = s.run ops := by
  induction calls generalizing s with
  | nil => exact ⟨[], rfl⟩
  | cons c cs ih =>
    cases c with
    | AddInt64 key delta =>
      cases h : s.AddInt64 key delta with
      | none =>
        refine ⟨[TopKOp.AddInt64 key delta], ?_⟩
        simp [TimeSeriesTopK.runCalls, TopKCall.apply, TimeSeriesTopK.run, TopKOp.apply, h]
      | some s' =>
        obtain ⟨ops, hops⟩ := ih s'
        refine ⟨TopKOp.AddInt64 key delta :: ops, ?_⟩
        simp [TimeSeriesTopK.runCalls, TopKCall.apply, TimeSeriesTopK.run, TopKOp.apply, h, hops]
    | tick =>
      obtain ⟨ops, hops⟩ := ih s.tick
      refine ⟨TopKOp.tick :: ops, ?_⟩
      simp [TimeSeriesTopK.runCalls, TopKCall.apply, TimeSeriesTopK.run, TopKOp.apply, hops]
    | GetCurr key =>
      obtain ⟨ops, hops⟩ := ih s
      exact ⟨ops, by simp [TimeSeriesTopK.runCalls, TopKCall.apply, hops]⟩
    | PastN points =>
      obtain ⟨ops, hops⟩ := ih s
      exact ⟨ops, by simp [TimeSeriesTopK.runCalls, TopKCall.apply, hops]⟩
    | SumPastN points =>
      obtain ⟨ops, hops⟩ := ih s
      exact ⟨ops, by simp [TimeSeriesTopK.runCalls, TopKCall.apply, hops]⟩

/-- C17: for a series of either kind built with capacity `points0`, any finite
sequence of `AddInt64` calls, rotations and reads runs without panic in a write
or a rotation and ends in a state whose ring has exactly `points0 + 1` slots;
there the queries accept `points = points0` and panic for every larger
`points`. -/
theorem C17_ring_size_invariant (srt : Sorter) (ro : RangeOrder) (points0 : Int)
    (m0 : TimeSeriesMetric) (t0 : TimeSeriesTopK)
    (hm0 : NewTimeSeriesMetric points0 = some m0) (ht0 : NewTimeSeriesTopK points0 = some t0)
    (mcalls : List MetricCall) (tcalls : List TopKCall) :
    ∃ m t, m0.runCalls mcalls = some m ∧ t0.runCalls tcalls = some t ∧
      m.values.Len = points0 + 1 ∧ t.values.Len = points0 + 1 ∧
      (∃ r, m.PastN points0 = some r) ∧ (∃ x, m.SumPastN points0 = some x) ∧
      (∃ r, t.PastN srt ro points0 = some r) ∧ (∃ r, t.SumPastN srt ro points0 = some r) ∧
      ∀ points : Int, points0 < points →
        m.PastN points = none ∧ m.SumPastN points = none ∧
          t.PastN srt ro points = none ∧ t.SumPastN srt ro points = none := by
  obtain ⟨mops, hmops⟩ := TimeSeriesMetric.runCalls_eq_run mcalls m0
  obtain ⟨tops, htops⟩ := TimeSeriesTopK.topK_runCalls_eq_run tcalls t0
  obtain ⟨m, hm, _, hmlen⟩ := TimeSeriesMetric.run_New hm0 mops
  obtain ⟨t, ht, _, htlen⟩ := TimeSeriesTopK.topK_run_New ht0 tops
  obtain ⟨hp0, _⟩ := view_NewTimeSeriesMetric hm0
  refine ⟨m, t, hmops.trans hm, htops.trans ht, hmlen, htlen, ?_, ?_, ?_, ?_, ?_⟩
  · unfold TimeSeriesMetric.PastN
    rw [if_neg (by omega), if_neg (by omega)]
    exact ⟨_, rfl⟩
  · unfold TimeSeriesMetric.SumPastN
    rw [if_neg (by omega)]
    exact ⟨_, rfl⟩
  · unfold TimeSeriesTopK.PastN
    rw [if_neg (by omega), if_neg (by omega)]
    exact ⟨_, rfl⟩
  · unfold TimeSeriesTopK.SumPastN
    rw [if_neg (by omega)]
    exact ⟨_, rfl⟩
  · intro points hp
    refine ⟨?_, ?_, ?_, ?_⟩
    · unfold TimeSeriesMetric.PastN
      rw [if_pos (by omega)]
    · unfold TimeSeriesMetric.SumPastN
      rw [if_pos (by omega)]
    · unfold TimeSeriesTopK.PastN
      rw [if_pos (by omega)]
    · unfold TimeSeriesTopK.SumPastN
      rw [if_pos (by omega)]

/-- C17 on concrete runs: capacity 1; a read that panics, a write, a rotation,
a read and a write on each series. -/
theorem C17_ring_size_invariant_witness :
    ∃ m t, TimeSeriesMetric.runCalls ⟨⟨[some 0, none]⟩⟩
          [.PastN 7, .AddInt64 (Int64.ofInt 3), .tick, .SumPastN 1, .AddInt64 (Int64.ofInt 4)] =
        some m ∧
      TimeSeriesTopK.runCalls ⟨⟨[some [], none]⟩⟩
          [.SumPastN 7, .AddInt64 "a" (Int64.ofInt 3), .tick, .GetCurr "a",
            .AddInt64 "b" (Int64.ofInt 4)] = some t ∧
      m.values.Len = (1 : Int) + 1 ∧ t.values.Len = (1 : Int) + 1 ∧
      (∃ r, m.PastN 1 = some r) ∧ (∃ x, m.SumPastN 1 = some x) ∧
      (∃ r, t.PastN insertionSorter RangeOrder.stored 1 = some r) ∧
      (∃ r, t.SumPastN insertionSorter RangeOrder.stored 1 = some r) ∧
      ∀ points : Int, 1 < points →
        m.PastN points = none ∧ m.SumPastN points = none ∧
          t.PastN insertionSorter RangeOrder.stored points = none ∧
          t.SumPastN insertionSorter RangeOrder.stored points = none :=
  C17_ring_size_invariant insertionSorter RangeOrder.stored 1 ⟨⟨[some 0, none]⟩⟩
    ⟨⟨[some [], none]⟩⟩ (by decide) (by decide) _ _

/-! ## One rotation, and expiry after `points0` rotations -/

/-- C13: one rotation shifts the history by one position and resets only the
new current slot. In every state reached by a scalar series of capacity
`points0`, for `1 <= points <= points0`, `PastN(points)` returns before and
after `tick`; afterwards index 0 is 0 and index `i + 1` is what index `i` was,
for `i + 1 < points`. In every state reached by a top-K series of capacity
`points0`, after `tick` `GetCurr(k)` is 0 for every key `k`, the current slot
holds the empty map, and the slot `i + 1` rotations old holds what the slot `i`
rotations old held before, for `i + 1 <= points0`. -/
theorem C13_tick_shifts_history (points0 : Int)
    (m0 m : TimeSeriesMetric) (mops : List MetricOp)
    (t0 t : TimeSeriesTopK) (tops : List TopKOp)
    (hm0 : NewTimeSeriesMetric points0 = some m0) (hm : m0.run mops = some m)
    (ht0 : NewTimeSeriesTopK points0 = some t0) (ht : t0.run tops = some t) :
    (∀ points : Int, 1 ≤ points → points ≤ points0 →
      ∃ r r', m.PastN points = some r ∧ m.tick.PastN points = some r' ∧
        r'[0]? = some 0 ∧ ∀ i : Nat, (i : Int) + 1 < points → r'[i + 1]? = r[i]?) ∧
    (∀ k, t.tick.GetCurr k = some 0) ∧
    t.tick.values.slotAt 0 = some [] ∧
    ∀ i : Nat, (i : Int) + 1 ≤ points0 → t.tick.values.slotAt (i + 1) = t.values.slotAt i := by
  obtain ⟨m1, hm1, hminv, hmlen⟩ := TimeSeriesMetric.run_New hm0 mops
  rw [hm] at hm1
  cases hm1
  obtain ⟨t1, ht1, htinv, htlen⟩ := TimeSeriesTopK.topK_run_New ht0 tops
  rw [ht] at ht1
  cases ht1
  have hmL : (m.values.view.length : Int) = points0 + 1 := hmlen
  have htL : (t.values.view.length : Int) = points0 + 1 := htlen
  have hmne : m.values.view ≠ [] := by
    intro h
    rw [h] at hmL
    obtain ⟨hp0, _⟩ := view_NewTimeSeriesMetric hm0
    simp at hmL
    omega
  have hmv := TimeSeriesMetric.view_tick m hmne
  have htv := TimeSeriesTopK.topK_view_tick t (TopKInv_ne_nil htinv)
  refine ⟨?_, ?_, ?_, ?_⟩
  · intro points h1 h2
    have hk : points.toNat ≤ m.values.view.length := by omega
    have hk' : points.toNat ≤ m.tick.values.view.length := by
      rw [TimeSeriesMetric.length_tick]
      exact hk
    obtain ⟨k, hkp⟩ : ∃ k, points.toNat = k + 1 := ⟨points.toNat - 1, by omega⟩
    refine ⟨TimeSeriesMetric.pastLoop m.values points.toNat,
      TimeSeriesMetric.pastLoop m.tick.values points.toNat, ?_, ?_, ?_, ?_⟩
    · unfold TimeSeriesMetric.PastN
      rw [if_neg (by unfold Ring.Len; omega), if_neg (by omega)]
    · unfold TimeSeriesMetric.PastN
      rw [if_neg (by unfold Ring.Len; rw [TimeSeriesMetric.length_tick]; omega),
        if_neg (by omega)]
    · rw [TimeSeriesMetric.pastLoop_eq _ _ hk', hmv, hkp]
      simp
    · intro i hi
      have hik : i < k := by omega
      have hil : i < m.values.view.length - 1 := by omega
      rw [TimeSeriesMetric.pastLoop_eq _ _ hk', TimeSeriesMetric.pastLoop_eq _ _ hk, hmv, hkp,
        List.take_succ_cons, List.map_cons, List.getElem?_cons_succ, List.getElem?_map,
        List.getElem?_map, List.getElem?_take, List.getElem?_take, if_pos hik,
        if_pos (by omega), List.getElem?_dropLast, if_pos hil]
  · intro k
    simp [TimeSeriesTopK.GetCurr, Ring.Value, htv, GoMap.index, GoMap.find]
    rfl
  · simp [Ring.slotAt, Ring.Value, htv]
  · intro i hi
    have hil : i < t.values.view.length - 1 := by omega
    rw [Ring.slotAt_eq _ _ (by rw [TimeSeriesTopK.topK_length_tick]; omega),
      Ring.slotAt_eq _ _ (by omega), htv, List.getElem?_cons_succ, List.getElem?_dropLast,
      if_pos hil]

/-- C13 on concrete runs: capacity 2; scalar state reached by `AddInt64(5)`,
rotation, `AddInt64(7)`; top-K state reached by `AddInt64("a", 5)`, rotation,
`AddInt64("b", 7)`. -/
theorem C13_tick_shifts_history_witness :
    (∀ points : Int, 1 ≤ points → points ≤ 2 →
      ∃ r r', TimeSeriesMetric.PastN
          ⟨⟨[some (Int64.ofInt 7), some (Int64.ofInt 5), none]⟩⟩ points = some r ∧
        (TimeSeriesMetric.tick
          ⟨⟨[some (Int64.ofInt 7), some (Int64.ofInt 5), none]⟩⟩).PastN points = some r' ∧
        r'[0]? = some 0 ∧ ∀ i : Nat, (i : Int) + 1 < points → r'[i + 1]? = r[i]?) ∧
    (∀ k, (TimeSeriesTopK.tick ⟨⟨[some [("b", ⟨"b", Int64.ofInt 7⟩)],
      some [("a", ⟨"a", Int64.ofInt 5⟩)], none]⟩⟩).GetCurr k = some 0) ∧
    (TimeSeriesTopK.tick ⟨⟨[some [("b", ⟨"b", Int64.ofInt 7⟩)],
      some [("a", ⟨"a", Int64.ofInt 5⟩)], none]⟩⟩).values.slotAt 0 = some [] ∧
    ∀ i : Nat, (i : Int) + 1 ≤ 2 →
      (TimeSeriesTopK.tick ⟨⟨[some [("b", ⟨"b", Int64.ofInt 7⟩)],
        some [("a", ⟨"a", Int64.ofInt 5⟩)], none]⟩⟩).values.slotAt (i + 1) =
      Ring.slotAt (⟨[some [("b", ⟨"b", Int64.ofInt 7⟩)],
        some [("a", ⟨"a", Int64.ofInt 5⟩)], none]⟩ : Ring GoMap) i :=
  C13_tick_shifts_history 2 ⟨⟨[some 0, none, none]⟩⟩ _
    [.AddInt64 (Int64.ofInt 5), .tick, .AddInt64 (Int64.ofInt 7)]
    ⟨⟨[some [], none, none]⟩⟩ _
    [.AddInt64 "a" (Int64.ofInt 5), .tick, .AddInt64 "b" (Int64.ofInt 7)]
    (by decide) (by decide) (by decide) (by decide)

theorem getElem?_cons_dropLast_of_all {α : Type} (z : α) (l : List α) (k : Nat)
    (h : ∀ i, i < k → i < l.length → l[i]? = some z) :
    ∀ i, i < k + 1 → i < (z :: l.dropLast).length → (z :: l.dropLast)[i]? = some z := by
  intro i hi hlen
  cases i with
  | zero => simp
  | succ j =>
    simp only [List.length_cons, List.length_dropLast] at hlen
    rw [List.getElem?_cons_succ, List.getElem?_dropLast, if_pos (by omega)]
    exact h j (by omega) (by omega)

/-- After `n` rotations in a row on a scalar series whose `k` most recent slots
read 0, the `k + n` most recent slots read 0. -/
theorem TimeSeriesMetric.run_ticks (n : Nat) (s : TimeSeriesMetric) (k : Nat)
    (hne : s.values.view ≠ [])
    (h : ∀ i, i < k → i < s.values.view.length → s.values.view[i]? = some (some 0)) :
    ∃ s', s.run (List.replicate n MetricOp.tick) = some s' ∧
      s'.values.view.length = s.values.view.length ∧
      ∀ i, i < k + n → i < s'.values.view.length → s'.values.view[i]? = some (some 0) := by
  induction n generalizing s k with
  | zero => exact ⟨s, rfl, rfl, h⟩
  | succ n ih =>
    have hv := TimeSeriesMetric.view_tick s hne
    have hne' : s.tick.values.view ≠ [] := by
      rw [hv]
      simp
    have h' : ∀ i, i < k + 1 → i < s.tick.values.view.length →
        s.tick.values.view[i]? = some (some 0) := by
      rw [hv]
      exact getElem?_cons_dropLast_of_all _ _ k h
    obtain ⟨s', hrun, hlen, hz⟩ := ih s.tick (k + 1) hne' h'
    refine ⟨s', ?_, ?_, ?_⟩
    · simpa [List.replicate_succ, TimeSeriesMetric.run, MetricOp.apply] using hrun
    · rw [hlen, TimeSeriesMetric.length_tick]
    · intro i hi hil
      exact hz i (by omega) hil

/-- After `n` rotations in a row on a top-K series whose `k` most recent slots
hold the empty map, the `k + n` most recent slots hold the empty map. -/
theorem TimeSeriesTopK.topK_run_ticks (n : Nat) (s : TimeSeriesTopK) (k : Nat)
    (hinv : TopKInv s)
    (h : ∀ i, i < k → i < s.values.view.length → s.values.view[i]? = some (some [])) :
    ∃ s', s.run (List.replicate n TopKOp.tick) = some s' ∧ TopKInv s' ∧
      s'.values.view.length = s.values.view.length ∧
      ∀ i, i < k + n → i < s'.values.view.length → s'.values.view[i]? = some (some []) := by
  induction n generalizing s k with
  | zero => exact ⟨s, rfl, hinv, rfl, h⟩
  | succ n ih =>
    have hv := TimeSeriesTopK.topK_view_tick s (TopKInv_ne_nil hinv)
    have h' : ∀ i, i < k + 1 → i < s.tick.values.view.length →
        s.tick.values.view[i]? = some (some []) := by
      rw [hv]
      exact getElem?_cons_dropLast_of_all _ _ k h
    obtain ⟨s', hrun, hinv', hlen, hz⟩ := ih s.tick (k + 1) (TopKInv_tick hinv) h'
    refine ⟨s', ?_, hinv', ?_, ?_⟩
    · simpa [List.replicate_succ, TimeSeriesTopK.run, TopKOp.apply] using hrun
    · rw [hlen, TimeSeriesTopK.topK_length_tick]
    · intro i hi hil
      exact hz i (by omega) hil

/-- A scalar series whose `points` most recent slots all read 0: `PastN` is all
zeros and `SumPastN` is 0. -/
theorem TimeSeriesMetric.reads_of_zero_window (s : TimeSeriesMetric) (points : Int)
    (h0 : 0 ≤ points) (h1 : points ≤ s.values.Len - 1)
    (hz : ∀ i, i < points.toNat → (s.values.view[i]?).join.getD 0 = 0) :
    s.PastN points = some (List.replicate points.toNat 0) ∧ s.SumPastN points = some 0 := by
  have hk : points.toNat ≤ s.values.view.length := by
    unfold Ring.Len at h1
    omega
  have hrep : (s.values.view.take points.toNat).map (fun o => o.getD 0) =
      List.replicate points.toNat 0 := by
    apply List.ext_getElem?
    intro i
    by_cases hi : i < points.toNat
    · have hil : i < s.values.view.length := by omega
      have := hz i hi
      rw [List.getElem?_eq_getElem hil] at this
      rw [List.getElem?_map, List.getElem?_take, if_pos hi, List.getElem?_replicate, if_pos hi,
        List.getElem?_eq_getElem hil]
      simpa [Option.join] using this
    · rw [List.getElem?_eq_none (by simp; omega), List.getElem?_eq_none (by simp; omega)]
  refine ⟨?_, ?_⟩
  · unfold TimeSeriesMetric.PastN
    rw [if_neg (by omega), if_neg (by omega), TimeSeriesMetric.pastLoop_eq _ _ hk, hrep]
  · unfold TimeSeriesMetric.SumPastN
    rw [if_neg (by omega), TimeSeriesMetric.sumLoop_eq _ _ _ hk, hrep, List.sum_replicate,
      smul_zero, add_zero]

/-- A top-K series whose `points` most recent slots hold no entry: `SumPastN`
returns the empty sequence. -/
theorem TimeSeriesTopK.SumPastN_of_empty_window (srt : Sorter) (ro : RangeOrder)
    (s : TimeSeriesTopK) (hinv : TopKInv s) (points : Int) (h1 : points ≤ s.values.Len - 1)
    (hz : ∀ m ∈ s.window points.toNat, m = []) :
    s.SumPastN srt ro points = some [] := by
  obtain ⟨r, M, hr, _, hperm, _, _, hkeys⟩ := TimeSeriesTopK.SumPastN_spec srt ro s hinv points h1
  have hM : M = [] := by
    cases M with
    | nil => rfl
    | cons e M =>
      obtain ⟨m, hm, hk⟩ := (hkeys e.1).mp (by simp)
      rw [hz m hm] at hk
      simp at hk
  rw [hM] at hperm
  rw [hr, List.Perm.eq_nil hperm]

/-- C14: from any state reached by a series of either kind with capacity
`points0 >= 1`, `points0` rotations in a row (no `AddInt64` in between) run
without panic, and afterwards nothing written earlier is visible: for every
`points` with `0 <= points <= points0`, scalar `PastN(points)` is `points`
zeros, scalar `SumPastN(points)` is 0 and top-K `SumPastN(points)` is empty,
and `GetCurr(k)` is 0 for every key `k`. -/
theorem C14_values_expire (srt : Sorter) (ro : RangeOrder) (points0 : Int)
    (m0 m : TimeSeriesMetric) (mops : List MetricOp)
    (t0 t : TimeSeriesTopK) (tops : List TopKOp)
    (hm0 : NewTimeSeriesMetric points0 = some m0) (hm : m0.run mops = some m)
    (ht0 : NewTimeSeriesTopK points0 = some t0) (ht : t0.run tops = some t)
    (hcap : 1 ≤ points0) :
    ∃ m' t', m.run (List.replicate points0.toNat MetricOp.tick) = some m' ∧
      t.run (List.replicate points0.toNat TopKOp.tick) = some t' ∧
      (∀ points : Int, 0 ≤ points → points ≤ points0 →
        m'.PastN points = some (List.replicate points.toNat 0) ∧
          m'.SumPastN points = some 0 ∧ t'.SumPastN srt ro points = some []) ∧
      ∀ k, t'.GetCurr k = some 0 := by
  obtain ⟨m1, hm1, hminv, hmlen⟩ := TimeSeriesMetric.run_New hm0 mops
  rw [hm] at hm1
  cases hm1
  obtain ⟨t1, ht1, htinv, htlen⟩ := TimeSeriesTopK.topK_run_New ht0 tops
  rw [ht] at ht1
  cases ht1
  have hmL : (m.values.view.length : Int) = points0 + 1 := hmlen
  have htL : (t.values.view.length : Int) = points0 + 1 := htlen
  have hmne : m.values.view ≠ [] := by
    intro h
    rw [h] at hmL
    simp at hmL
    omega
  obtain ⟨m', hmrun, hmlen', hmz⟩ := TimeSeriesMetric.run_ticks points0.toNat m 0 hmne
    (fun i hi => absurd hi (Nat.not_lt_zero i))
  obtain ⟨t', htrun, htinv', htlen', htz⟩ := TimeSeriesTopK.topK_run_ticks points0.toNat t 0 htinv
    (fun i hi => absurd hi (Nat.not_lt_zero i))
  refine ⟨m', t', hmrun, htrun, ?_, ?_⟩
  · intro points h0 h1
    have hmLen : points ≤ m'.values.Len - 1 := by
      unfold Ring.Len
      omega
    have htLen : points ≤ t'.values.Len - 1 := by
      unfold Ring.Len
      omega
    have hreads := TimeSeriesMetric.reads_of_zero_window m' points h0 hmLen (by
      intro i hi
      rw [hmz i (by omega) (by omega)]
      rfl)
    refine ⟨hreads.1, hreads.2, ?_⟩
    apply TimeSeriesTopK.SumPastN_of_empty_window srt ro t' htinv' points htLen
    intro mp hmp
    obtain ⟨i, hi, rfl⟩ := (TimeSeriesTopK.mem_window t' _ mp).mp hmp
    rw [Ring.slotAt_eq _ _ (by omega), htz i (by omega) (by omega)]
    rfl
  · intro k
    have h0 := htz 0 (by omega) (by omega)
    have hval : t'.values.Value = some [] := by
      rw [Ring.Value_eq_head, List.head?_eq_getElem?, h0]
      rfl
    simp [TimeSeriesTopK.GetCurr, hval, GoMap.index, GoMap.find]
    rfl

/-- C14 on concrete runs: capacity 2; scalar state reached by `AddInt64(5)`,
rotation, `AddInt64(7)`; top-K state reached by `AddInt64("a", 5)`, rotation,
`AddInt64("b", 7)`; then two rotations. -/
theorem C14_values_expire_witness :
    ∃ m' t', TimeSeriesMetric.run ⟨⟨[some (Int64.ofInt 7), some (Int64.ofInt 5), none]⟩⟩
          (List.replicate (2 : Int).toNat MetricOp.tick) = some m' ∧
      TimeSeriesTopK.run ⟨⟨[some [("b", ⟨"b", Int64.ofInt 7⟩)],
          some [("a", ⟨"a", Int64.ofInt 5⟩)], none]⟩⟩
          (List.replicate (2 : Int).toNat TopKOp.tick) = some t' ∧
      (∀ points : Int, 0 ≤ points → points ≤ 2 →
        m'.PastN points = some (List.replicate points.toNat 0) ∧
          m'.SumPastN points = some 0 ∧
          t'.SumPastN insertionSorter RangeOrder.stored points = some []) ∧
      ∀ k, t'.GetCurr k = some 0 :=
  C14_values_expire insertionSorter RangeOrder.stored 2 ⟨⟨[some 0, none, none]⟩⟩ _
    [.AddInt64 (Int64.ofInt 5), .tick, .AddInt64 (Int64.ofInt 7)]
    ⟨⟨[some [], none, none]⟩⟩ _
    [.AddInt64 "a" (Int64.ofInt 5), .tick, .AddInt64 "b" (Int64.ofInt 7)]
    (by decide) (by decide) (by decide) (by decide) (by decide)

/-! ## Slots never rotated into -/

/-- C11: on a freshly built series of either kind with capacity `points0`,
after any writes to the current slot and no rotation, for every `points` with
`1 <= points <= points0` the four queries return; for `1 <= i < points` scalar
`PastN(points)[i]` is 0 and top-K `PastN(points)[i]` is the empty sequence.
With no write either, scalar `SumPastN(points)` is 0 and top-K
`SumPastN(points)` is empty. -/
theorem C11_cold_slots_read_empty (srt : Sorter) (ro : RangeOrder) (points0 : Int)
    (m0 : TimeSeriesMetric) (t0 : TimeSeriesTopK)
    (hm0 : NewTimeSeriesMetric points0 = some m0) (ht0 : NewTimeSeriesTopK points0 = some t0)
    (deltas : List Int64) (writes : List (String × Int64))
    (points : Int) (h1 : 1 ≤ points) (h2 : points ≤ points0) :
    ∃ m t, m0.run (deltas.map MetricOp.AddInt64) = some m ∧
      t0.run (writes.map fun w => TopKOp.AddInt64 w.1 w.2) = some t ∧
      (∃ r, m.PastN points = some r ∧
        ∀ i : Nat, 1 ≤ i → (i : Int) < points → r[i]? = some 0) ∧
      (∃ x, m.SumPastN points = some x) ∧
      (∃ r, t.PastN srt ro points = some r ∧
        ∀ i : Nat, 1 ≤ i → (i : Int) < points → r[i]? = some []) ∧
      (∃ r, t.SumPastN srt ro points = some r) ∧
      m0.SumPastN points = some 0 ∧ t0.SumPastN srt ro points = some [] := by
  obtain ⟨m, hm, hminv, hmlen⟩ := TimeSeriesMetric.run_New hm0 (deltas.map MetricOp.AddInt64)
  obtain ⟨t, ht, htinv, htlen⟩ :=
    TimeSeriesTopK.topK_run_New ht0 (writes.map fun w => TopKOp.AddInt64 w.1 w.2)
  obtain ⟨hp0, hmview0⟩ := view_NewTimeSeriesMetric hm0
  obtain ⟨_, htview0⟩ := view_NewTimeSeriesTopK ht0
  have htL : (t.values.view.length : Int) = points0 + 1 := htlen
  have hmcount : (deltas.map MetricOp.AddInt64).count MetricOp.tick = 0 := by
    apply List.count_eq_zero.mpr
    simp
  have htops : ∀ op ∈ writes.map (fun w => TopKOp.AddInt64 w.1 w.2), op ≠ TopKOp.tick := by
    intro op hop
    obtain ⟨w, _, rfl⟩ := List.mem_map.mp hop
    simp
  have httail := TimeSeriesTopK.run_adds_tail _ t0 t htops ht
  rw [htview0, List.tail_cons] at httail
  have hk : points.toNat ≤ t.values.view.length := by omega
  have hm0L : m0.values.Len = points0 + 1 := by
    unfold Ring.Len
    rw [hmview0]
    simp
    omega
  have ht0L : t0.values.Len = points0 + 1 := by
    unfold Ring.Len
    rw [htview0]
    simp
    omega
  refine ⟨m, t, hm, ht, ?_, ?_, ?_, ?_, ?_, ?_⟩
  · obtain ⟨r, hr, _, hri⟩ := TimeSeriesMetric.PastN_of_inv hminv points (by omega) (by omega)
    refine ⟨r, hr, ?_⟩
    intro i hi1 hi2
    rw [hri i hi2, List.getD_eq_default]
    · rfl
    · rw [length_bucketDeltas _ _ (by simp), hmcount]
      simpa using hi1
  · unfold TimeSeriesMetric.SumPastN
    rw [if_neg (by omega)]
    exact ⟨_, rfl⟩
  · refine ⟨TimeSeriesTopK.pastLoop srt ro 0 t.values points.toNat, ?_, ?_⟩
    · unfold TimeSeriesTopK.PastN
      rw [if_neg (by omega), if_neg (by omega)]
    · intro i hi1 hi2
      obtain ⟨j, rfl⟩ : ∃ j, i = j + 1 := ⟨i - 1, by omega⟩
      have hslot : t.values.view[j + 1]? = some none := by
        have htl : t.values.view[j + 1]? = t.values.view.tail[j]? := by
          cases t.values.view <;> simp
        rw [htl, httail, List.getElem?_replicate, if_pos (by omega)]
      rw [TimeSeriesTopK.getElem?_pastLoop srt ro _ 0 _ (j + 1) (by omega) hk, hslot]
      rfl
  · unfold TimeSeriesTopK.SumPastN
    rw [if_neg (by omega)]
    exact ⟨_, rfl⟩
  · refine (TimeSeriesMetric.reads_of_zero_window m0 points (by omega) (by omega) ?_).2
    intro i hi
    rw [hmview0]
    cases i with
    | zero => simp [Option.join]
    | succ j =>
      rw [List.getElem?_cons_succ, List.getElem?_replicate]
      split <;> rfl
  · apply TimeSeriesTopK.SumPastN_of_empty_window srt ro t0 (TopKInv_New ht0) points (by omega)
    intro mp hmp
    obtain ⟨i, hi, rfl⟩ := (TimeSeriesTopK.mem_window t0 _ mp).mp hmp
    rw [Ring.slotAt_eq _ _ (by rw [htview0]; simp; omega), htview0]
    cases i with
    | zero => simp [Option.join]
    | succ j =>
      rw [List.getElem?_cons_succ, List.getElem?_replicate]
      split <;> rfl

/-- C11 on concrete runs: capacity 3, writes `AddInt64(5)`, `AddInt64(-2)` on
the scalar series and `AddInt64("a", 5)`, `AddInt64("b", 1)` on the top-K
series, and `points = 3`. -/
theorem C11_cold_slots_read_empty_witness :
    ∃ m t, TimeSeriesMetric.run ⟨⟨[some 0, none, none, none]⟩⟩
          ([Int64.ofInt 5, Int64.ofInt (-2)].map MetricOp.AddInt64) = some m ∧
      TimeSeriesTopK.run ⟨⟨[some [], none, none, none]⟩⟩
          ([("a", Int64.ofInt 5), ("b", Int64.ofInt 1)].map
            fun w => TopKOp.AddInt64 w.1 w.2) = some t ∧
      (∃ r, m.PastN 3 = some r ∧ ∀ i : Nat, 1 ≤ i → (i : Int) < 3 → r[i]? = some 0) ∧
      (∃ x, m.SumPastN 3 = some x) ∧
      (∃ r, t.PastN insertionSorter RangeOrder.stored 3 = some r ∧
        ∀ i : Nat, 1 ≤ i → (i : Int) < 3 → r[i]? = some []) ∧
      (∃ r, t.SumPastN insertionSorter RangeOrder.stored 3 = some r) ∧
      TimeSeriesMetric.SumPastN ⟨⟨[some 0, none, none, none]⟩⟩ 3 = some 0 ∧
      TimeSeriesTopK.SumPastN insertionSorter RangeOrder.stored
        ⟨⟨[some [], none, none, none]⟩⟩ 3 = some [] :=
  C11_cold_slots_read_empty insertionSorter RangeOrder.stored 3 ⟨⟨[some 0, none, none, none]⟩⟩
    ⟨⟨[some [], none, none, none]⟩⟩ (by decide) (by decide)
    [Int64.ofInt 5, Int64.ofInt (-2)] [("a", Int64.ofInt 5), ("b", Int64.ofInt 1)] 3
    (by decide) (by decide)

/-! ## Keys of the stored tuples -/

theorem Ring.mem_view_of_slotAt {α : Type} (r : Ring α) (i : Nat) (m : α)
    (h : r.slotAt i = some m) : some m ∈ r.view := by
  unfold Ring.slotAt at h
  rw [Ring.Value_eq_head, Ring.view_iterate_Prev] at h
  cases hh : (r.view.rotate i).head? with
  | none => simp [hh, Option.join] at h
  | some o =>
    rw [hh] at h
    simp only [Option.join, Option.bind_eq_bind, Option.some_bind, id_eq] at h
    subst h
    exact List.mem_rotate.mp (List.mem_of_mem_head? hh)

theorem GoMap.nodup_Key_of_perm {m : GoMap} (h : GoMap.WF m) {l : List Tuple}
    (hp : l.Perm (m.map Prod.snd)) : (l.map Tuple.Key).Nodup := by
  rw [(hp.map Tuple.Key).nodup_iff, GoMap.map_Key_snd h]
  exact h.1

/-- C15: in every state reached by a top-K series, every entry stored in a
slot's map under the map key `k` is a `Tuple` whose `Key` is `k`; and, whatever
the iteration order of `range` and the tie-breaking of the sort, the tuples of
each snapshot returned by `PastN(points)` (`0 <= points <= points0`) and the
tuples returned by `SumPastN(points)` (`points <= points0`) have pairwise
distinct `Key` fields. -/
theorem C15_stored_keys_match (srt : Sorter) (ro : RangeOrder) (points0 : Int)
    (s0 s : TimeSeriesTopK) (ops : List TopKOp) (hnew : NewTimeSeriesTopK points0 = some s0)
    (hrun : s0.run ops = some s) :
    (∀ (i : Nat) (m : GoMap), s.values.slotAt i = some m → ∀ e ∈ m, e.2.Key = e.1) ∧
    (∀ points : Int, 0 ≤ points → points ≤ points0 →
      ∃ r, s.PastN srt ro points = some r ∧ ∀ snap ∈ r, (snap.map Tuple.Key).Nodup) ∧
    (∀ points : Int, points ≤ points0 →
      ∃ r, s.SumPastN srt ro points = some r ∧ (r.map Tuple.Key).Nodup) := by
  obtain ⟨s1, hrun1, hinv, hlen⟩ := TimeSeriesTopK.topK_run_New hnew ops
  rw [hrun] at hrun1
  cases hrun1
  have hL : (s.values.view.length : Int) = points0 + 1 := hlen
  refine ⟨?_, ?_, ?_⟩
  · intro i m hm
    exact (hinv.2 m (Ring.mem_view_of_slotAt _ i m hm)).2
  · intro points h0 h1
    have hk : points.toNat ≤ s.values.view.length := by omega
    refine ⟨TimeSeriesTopK.pastLoop srt ro 0 s.values points.toNat, ?_, ?_⟩
    · unfold TimeSeriesTopK.PastN
      rw [if_neg (by unfold Ring.Len; omega), if_neg (by omega)]
    · intro snap hsnap
      obtain ⟨i, hi⟩ := List.mem_iff_getElem?.mp hsnap
      have hip : i < points.toNat := by
        by_contra hc
        rw [List.getElem?_eq_none (by rw [TimeSeriesTopK.length_pastLoop]; omega)] at hi
        cases hi
      have hil : i < s.values.view.length := by omega
      rw [TimeSeriesTopK.getElem?_pastLoop srt ro _ 0 _ i hip hk, Option.some.injEq] at hi
      subst hi
      cases hv : (s.values.view[i]?).join with
      | none => simp
      | some v =>
        have hmem : some v ∈ s.values.view := by
          rw [List.getElem?_eq_getElem hil] at hv
          simp only [Option.join, Option.bind_eq_bind, Option.some_bind, id_eq] at hv
          rw [← hv]
          exact List.getElem_mem _
        exact GoMap.nodup_Key_of_perm (hinv.2 v hmem)
          ((srt.perm _).trans ((ro.perm _ v).map Prod.snd))
  · intro points h1
    obtain ⟨r, M, hr, hwf, hperm, _, _, _⟩ :=
      TimeSeriesTopK.SumPastN_spec srt ro s hinv points (by omega)
    exact ⟨r, hr, GoMap.nodup_Key_of_perm hwf hperm⟩

/-- C15 on a concrete run: capacity 2, `AddInt64("a", 5)`, `AddInt64("b", 9)`,
rotation, `AddInt64("a", 1)`, with insertion sort and maps visited backwards. -/
theorem C15_stored_keys_match_witness :
    (∀ (i : Nat) (m : GoMap),
      Ring.slotAt (⟨[some [("a", ⟨"a", Int64.ofInt 1⟩)],
        some [("a", ⟨"a", Int64.ofInt 5⟩), ("b", ⟨"b", Int64.ofInt 9⟩)], none]⟩ : Ring GoMap) i =
          some m → ∀ e ∈ m, e.2.Key = e.1) ∧
    (∀ points : Int, 0 ≤ points → points ≤ 2 →
      ∃ r, TimeSeriesTopK.PastN insertionSorter RangeOrder.backwards
          ⟨⟨[some [("a", ⟨"a", Int64.ofInt 1⟩)],
            some [("a", ⟨"a", Int64.ofInt 5⟩), ("b", ⟨"b", Int64.ofInt 9⟩)], none]⟩⟩ points =
            some r ∧ ∀ snap ∈ r, (snap.map Tuple.Key).Nodup) ∧
    (∀ points : Int, points ≤ 2 →
      ∃ r, TimeSeriesTopK.SumPastN insertionSorter RangeOrder.backwards
          ⟨⟨[some [("a", ⟨"a", Int64.ofInt 1⟩)],
            some [("a", ⟨"a", Int64.ofInt 5⟩), ("b", ⟨"b", Int64.ofInt 9⟩)], none]⟩⟩ points =
            some r ∧ (r.map Tuple.Key).Nodup) :=
  C15_stored_keys_match insertionSorter RangeOrder.backwards 2 ⟨⟨[some [], none, none]⟩⟩ _
    [.AddInt64 "a" (Int64.ofInt 5), .AddInt64 "b" (Int64.ofInt 9), .tick,
      .AddInt64 "a" (Int64.ofInt 1)] (by decide) (by decide)

end Timeseries
